import Mathlib

/-!
Shallow embedding of the equation-group codec declared in
`src/library/equations_compiler/util.h`.  The header provides the class
shapes, the signatures, and several binding doc comments (for example
that `m_arity` is ignored by `repack`); the operation bodies live in
`util.cpp`, which is not part of the source tree, so every operation
body below is modelled from the spec, as its doc comment records.

Terms are embedded locally namelessly: bound variables are de Bruijn
indices (`bvar`), codec placeholders are free variables (`fvar`)
allocated from the context's fresh-name counter.  The opaque wire
format of a group (spec, section 6, owned by an external encoder) is
fixed as: a `group` tag carrying the number of functions and a body
made of one lambda binder per function slot wrapping a `consE`/`nilE`
list of per-slot clause lists; each clause is `wrap` (the legacy
per-clause indirection) around the pattern-variable lambdas around an
`eqn lhs rhs` node.
-/

namespace EqCompiler

abbrev Name := Nat

/-- Expression language of the embedding. -/
inductive Expr where
  | bvar  (i : Nat)
  | fvar  (x : Nat)
  | const (n : Name)
  | app   (f a : Expr)
  | lam   (nm : Name) (ty body : Expr)
  | pi    (nm : Name) (ty body : Expr)
  | eqn   (lhs rhs : Expr)
  | wrap  (e : Expr)
  | nilE
  | consE (hd tl : Expr)
  | group (numFns : Nat) (body : Expr)
deriving DecidableEq

namespace Expr

/-- Whether the free variable `x` occurs in a term. -/
def occursF (x : Nat) : Expr → Bool
  | .bvar _ => false
  | .fvar y => decide (x = y)
  | .const _ => false
  | .app f a => occursF x f || occursF x a
  | .lam _ ty b => occursF x ty || occursF x b
  | .pi _ ty b => occursF x ty || occursF x b
  | .eqn l r => occursF x l || occursF x r
  | .wrap e => occursF x e
  | .nilE => false
  | .consE c r => occursF x c || occursF x r
  | .group _ b => occursF x b

/-- Every free variable of the term has index below `n`. -/
def fvarsBelow (n : Nat) : Expr → Bool
  | .bvar _ => true
  | .fvar y => decide (y < n)
  | .const _ => true
  | .app f a => fvarsBelow n f && fvarsBelow n a
  | .lam _ ty b => fvarsBelow n ty && fvarsBelow n b
  | .pi _ ty b => fvarsBelow n ty && fvarsBelow n b
  | .eqn l r => fvarsBelow n l && fvarsBelow n r
  | .wrap e => fvarsBelow n e
  | .nilE => true
  | .consE c r => fvarsBelow n c && fvarsBelow n r
  | .group _ b => fvarsBelow n b

/-- Local closedness below depth `d`: every de Bruijn index is bound
either by a binder inside the term or by one of the `d` ambient
binders. -/
def LCb (d : Nat) : Expr → Bool
  | .bvar i => decide (i < d)
  | .fvar _ => true
  | .const _ => true
  | .app f a => LCb d f && LCb d a
  | .lam _ ty b => LCb d ty && LCb (d+1) b
  | .pi _ ty b => LCb d ty && LCb (d+1) b
  | .eqn l r => LCb d l && LCb d r
  | .wrap e => LCb d e
  | .nilE => true
  | .consE c r => LCb d c && LCb d r
  | .group _ b => LCb d b

/-- Head of an application spine. -/
def getAppFn : Expr → Expr
  | .app f _ => getAppFn f
  | e => e

/-- Number of arguments in an application spine. -/
def getAppNumArgs : Expr → Nat
  | .app f _ => getAppNumArgs f + 1
  | _ => 0

/-- Count of leading pi binders of a declared function type; this is the
arity the group codec records for a function slot. -/
def numPis : Expr → Nat
  | .pi _ _ b => numPis b + 1
  | _ => 0

/-- Whether the term is a lambda. -/
def isLamE : Expr → Bool
  | .lam _ _ _ => true
  | _ => false

/-- Whether the term carries the equation-group tag. -/
def isGroupE : Expr → Bool
  | .group _ _ => true
  | _ => false

/-- Whether the term carries the legacy per-clause indirection. -/
def isWrapE : Expr → Bool
  | .wrap _ => true
  | _ => false

end Expr

open Expr

/-- Position of a key in a list of free-variable names. -/
def idxOfN (x : Nat) : List Nat → Nat
  | [] => 0
  | y :: ys => if x = y then 0 else idxOfN x ys + 1

/-- The consecutive identifiers `s, s+1, ..., s+k-1`. -/
def idsFrom : Nat → Nat → List Nat
  | _, 0 => []
  | s, k+1 => s :: idsFrom (s+1) k

/-- Replace the ambient de Bruijn indices `d, d+1, ...` by the free
variables listed in `xs` (index `d` becomes `xs[0]`, and so on). -/
def openAll (xs : List Nat) (d : Nat) : Expr → Expr
  | .bvar i => if d ≤ i ∧ i - d < xs.length then .fvar (xs.getD (i - d) 0) else .bvar i
  | .fvar y => .fvar y
  | .const n => .const n
  | .app f a => .app (openAll xs d f) (openAll xs d a)
  | .lam nm ty b => .lam nm (openAll xs d ty) (openAll xs (d+1) b)
  | .pi nm ty b => .pi nm (openAll xs d ty) (openAll xs (d+1) b)
  | .eqn l r => .eqn (openAll xs d l) (openAll xs d r)
  | .wrap e => .wrap (openAll xs d e)
  | .nilE => .nilE
  | .consE c r => .consE (openAll xs d c) (openAll xs d r)
  | .group n b => .group n (openAll xs d b)

/-- Abstract the free variables listed in `xs` back into the ambient de
Bruijn indices `d, d+1, ...` (the variable `xs[0]` becomes index `d`).
This is the close-range operation of the binder abstraction stack. -/
def closeAll (xs : List Nat) (d : Nat) : Expr → Expr
  | .bvar i => .bvar i
  | .fvar y => if y ∈ xs then .bvar (d + idxOfN y xs) else .fvar y
  | .const n => .const n
  | .app f a => .app (closeAll xs d f) (closeAll xs d a)
  | .lam nm ty b => .lam nm (closeAll xs d ty) (closeAll xs (d+1) b)
  | .pi nm ty b => .pi nm (closeAll xs d ty) (closeAll xs (d+1) b)
  | .eqn l r => .eqn (closeAll xs d l) (closeAll xs d r)
  | .wrap e => .wrap (closeAll xs d e)
  | .nilE => .nilE
  | .consE c r => .consE (closeAll xs d c) (closeAll xs d r)
  | .group n b => .group n (closeAll xs d b)

/-- One placeholder of the binder abstraction stack: its identifier,
its declared name, and its declared type (stored in opened form). -/
structure LocalDecl where
  id : Nat
  nm : Name
  ty : Expr
deriving DecidableEq

/-- Model of `type_context::tmp_locals`: the fresh-identifier counter
taken from the ambient context together with the stack of placeholders
pushed by the owning codec, in push order. -/
structure tmp_locals where
  next  : Nat
  stack : List LocalDecl
deriving DecidableEq

/-- Model of the inductive-type registry entry for one inductive. -/
structure inductive_info where
  num_params  : Nat
  num_indices : Nat
deriving DecidableEq

/-- Modelled from the spec: the environment, reduced to the two
capabilities section 4.2 consumes — the registry of inductive types and
the constructor-to-family map.  The real environment lives outside this
component (util.h only includes it). -/
structure environment where
  ind_info      : Name → Option inductive_info
  constr_family : Name → Option Name

/-- Modelled from the spec: the ambient elaboration context, reduced to
what the codec consumes — the environment and the fresh-name counter
used to allocate placeholders. -/
structure type_context where
  env  : environment
  ngen : Nat

/-- Rebuild a lambda telescope from raw binders. -/
def tele : List (Name × Expr) → Expr → Expr
  | [], b => b
  | (n, ty) :: bs, b => .lam n ty (tele bs b)

/-- Strip every leading lambda, returning the raw binder list and the
core. -/
def collectLams : Expr → List (Name × Expr) × Expr
  | .lam n ty b =>
      let r := collectLams b
      ((n, ty) :: r.1, r.2)
  | e => ([], e)

/-- Modelled from the spec: the Malformed-Input Signal declared at
util.h line 10 (`throw_ill_formed_eqns`); its body is in util.cpp,
which is not in the source tree.  Failure is the error case of
`Except`, so no partially-decoded result can escape. -/
def throw_ill_formed_eqns {α : Type} : Except Unit α := .error ()

instance {ε α : Type} [DecidableEq ε] [DecidableEq α] : DecidableEq (Except ε α) := fun a b =>
  match a, b with
  | .ok x, .ok y =>
      if h : x = y then .isTrue (by rw [h]) else .isFalse (by intro hc; cases hc; exact h rfl)
  | .error x, .error y =>
      if h : x = y then .isTrue (by rw [h]) else .isFalse (by intro hc; cases hc; exact h rfl)
  | .ok _, .error _ => .isFalse (by intro hc; cases hc)
  | .error _, .ok _ => .isFalse (by intro hc; cases hc)

/-- Strip exactly `n` leading lambdas (the function-slot binders of a
group), failing on a shape violation. -/
def collectFns : Nat → Expr → Except Unit (List (Name × Expr) × Expr)
  | 0, e => .ok ([], e)
  | n+1, .lam nm ty b =>
      match collectFns n b with
      | .ok r => .ok ((nm, ty) :: r.1, r.2)
      | .error u => .error u
  | _+1, _ => throw_ill_formed_eqns

/-- Push a telescope of raw binders onto the stack: each binder gets a
fresh identifier and its type is opened with the previously pushed
placeholders.  Returns the stack and the identifiers in push order. -/
def pushTele (L : tmp_locals) (acc : List Nat) : List (Name × Expr) → tmp_locals × List Nat
  | [] => (L, acc)
  | (n, ty) :: bs =>
      pushTele ⟨L.next + 1, L.stack ++ [⟨L.next, n, openAll acc.reverse 0 ty⟩]⟩ (acc ++ [L.next]) bs

/-- The declarations `pushTele` appends, as a function of the starting
counter and the previously pushed identifiers. -/
def pushDecls (nx : Nat) (acc : List Nat) : List (Name × Expr) → List LocalDecl
  | [] => []
  | (n, ty) :: bs => ⟨nx, n, openAll acc.reverse 0 ty⟩ :: pushDecls (nx+1) (acc ++ [nx]) bs

/-- Close a declaration segment over a body, most recently pushed
placeholder first (strict reverse-of-push order), rebuilding properly
nested binders.  This is the close operation of the binder abstraction
stack applied to a whole segment. -/
def mkLambdas : List LocalDecl → Expr → Expr
  | [], b => b
  | d :: ds, b => .lam d.nm d.ty (closeAll [d.id] 0 (mkLambdas ds b))

/-- The raw binder telescope `mkLambdas` produces: each declared type is
abstracted over the identifiers of the declarations before it (`xs`
holds the enclosing identifiers, innermost first). -/
def rawT : List LocalDecl → List Nat → List (Name × Expr)
  | [], _ => []
  | d :: ds, xs => (d.nm, closeAll xs 0 d.ty) :: rawT ds (d.id :: xs)

/-- Identifiers of a declaration segment in reverse-of-push order. -/
def revIds : List LocalDecl → List Nat
  | [] => []
  | d :: ds => revIds ds ++ [d.id]

/-- Encode a clause list in the wire format. -/
def toListE : List Expr → Expr
  | [] => .nilE
  | c :: cs => .consE c (toListE cs)

/-- Decode a wire-format clause list. -/
def asList : Expr → Option (List Expr)
  | .nilE => some []
  | .consE c rest =>
      match asList rest with
      | some l => some (c :: l)
      | none => none
  | _ => none

/-- Decode every slot term of a group into its clause list. -/
def decListList : List Expr → Option (List (List Expr))
  | [] => some []
  | s :: ss =>
      match asList s, decListList ss with
      | some cs, some css => some (cs :: css)
      | _, _ => none

/-- Decoded form of one clause, mirroring the fields of class
`unpack_eqn` (util.h lines 53-60). -/
structure UnpackEqn where
  m_src : Expr
  m_locals : tmp_locals
  m_modified_vars : Bool
  m_vars : List Expr
  m_nested_src : Expr
  m_lhs : Expr
  m_rhs : Expr
deriving DecidableEq

/-- Modelled from the spec: the `unpack_eqn` constructor (util.h line
62; body in util.cpp, not in the source tree).  Unwraps the legacy
per-clause indirection, pushes a placeholder per leading pattern
binder, and splits the core into lhs and rhs; any other shape raises
the Malformed-Input Signal. -/
def unpack_eqn (ctx : type_context) (e : Expr) : Except Unit UnpackEqn :=
  match e with
  | .wrap body =>
      match collectLams body with
      | (bs, .eqn l r) =>
          .ok ⟨e, (pushTele ⟨ctx.ngen, []⟩ [] bs).1, false,
               ((pushTele ⟨ctx.ngen, []⟩ [] bs).2).map Expr.fvar, body,
               openAll ((pushTele ⟨ctx.ngen, []⟩ [] bs).2).reverse 0 l,
               openAll ((pushTele ⟨ctx.ngen, []⟩ [] bs).2).reverse 0 r⟩
      | _ => throw_ill_formed_eqns
  | _ => throw_ill_formed_eqns

/-- Modelled from the spec: `unpack_eqn::add_var` (util.h line 63; body
in util.cpp, not in the source tree).  Pushes a new placeholder,
appends it to the clause's variable list and marks the clause
modified. -/
def UnpackEqn.add_var (u : UnpackEqn) (n : Name) (ty : Expr) : Expr × UnpackEqn :=
  let v := Expr.fvar u.m_locals.next
  (v, { u with
        m_locals := ⟨u.m_locals.next + 1, u.m_locals.stack ++ [⟨u.m_locals.next, n, ty⟩]⟩,
        m_vars := u.m_vars ++ [v],
        m_modified_vars := true })

/-- Iterated `add_var`. -/
def addVars (u : UnpackEqn) : List (Name × Expr) → UnpackEqn
  | [] => u
  | (n, ty) :: ps => addVars (u.add_var n ty).2 ps

/-- Modelled from the spec: `unpack_eqn::repack` (util.h line 67; body
in util.cpp, not in the source tree).  Closes the clause's
placeholders, most recently pushed first, over the assembled lhs/rhs
pair and re-wraps the legacy indirection. -/
def UnpackEqn.repack (u : UnpackEqn) : Expr :=
  .wrap (mkLambdas u.m_locals.stack (.eqn u.m_lhs u.m_rhs))

/-- Decoded form of a whole group, mirroring the fields of class
`unpack_eqns` (util.h lines 21-32). -/
structure UnpackEqns where
  m_locals : tmp_locals
  m_src : Expr
  m_fns : List Expr
  m_arity : List Nat
  m_eqs : List (List Expr)
deriving DecidableEq

/-- Clause-shape check run while decoding a group: the clause must
decode (section 4.3) and its lhs must apply the owning slot's
placeholder to exactly the recorded arity of argument positions. -/
def checkEqn (vctx : type_context) (fn : Expr) (ar : Nat) (c : Expr) : Bool :=
  match unpack_eqn vctx c with
  | .ok u => decide (getAppFn u.m_lhs = fn ∧ getAppNumArgs u.m_lhs = ar)
  | .error _ => false

/-- Clause-shape check over every slot of a group; also forces the
slot, arity and clause-list lists to have equal lengths. -/
def checkSlots (vctx : type_context) : List Expr → List Nat → List (List Expr) → Bool
  | [], [], [] => true
  | fn :: fns, ar :: ars, cs :: css =>
      cs.all (checkEqn vctx fn ar) && checkSlots vctx fns ars css
  | _, _, _ => false

/-- Modelled from the spec: the `unpack_eqns` constructor (util.h line
36; body in util.cpp, not in the source tree).  Requires the group
tag, pushes one placeholder per function slot, records each arity from
the declared signature, instantiates the embedded clause lists and
validates every clause through the single-equation codec; any shape
violation raises the Malformed-Input Signal. -/
def unpack_eqns (ctx : type_context) (e : Expr) : Except Unit UnpackEqns :=
  match e with
  | .group nfns body =>
      match collectFns nfns body with
      | .error _ => throw_ill_formed_eqns
      | .ok r =>
          let L := (pushTele ⟨ctx.ngen, []⟩ [] r.1).1
          let ids := (pushTele ⟨ctx.ngen, []⟩ [] r.1).2
          let fns := ids.map Expr.fvar
          let ars := L.stack.map fun d => numPis d.ty
          match asList (openAll ids.reverse 0 r.2) with
          | none => throw_ill_formed_eqns
          | some slots =>
              match decListList slots with
              | none => throw_ill_formed_eqns
              | some eqss =>
                  if slots.length = nfns ∧ checkSlots ⟨ctx.env, L.next⟩ fns ars eqss = true
                  then .ok ⟨L, e, fns, ars, eqss⟩
                  else throw_ill_formed_eqns
  | _ => throw_ill_formed_eqns

/-- Modelled from the spec: `unpack_eqns::repack` (util.h line 39; body
in util.cpp, not in the source tree).  Re-builds the group term from
`m_fns` and `m_eqs`, closing the function-slot placeholders in reverse
creation order and re-applying the group tag.  The `m_arity` field is
ignored, as the header comment at util.h line 28 requires. -/
def UnpackEqns.repack (s : UnpackEqns) : Expr :=
  .group s.m_fns.length (mkLambdas s.m_locals.stack (toListE (s.m_eqs.map toListE)))

/-- Modelled from the spec: `unpack_eqns::update_fn_type` (util.h line
43; body in util.cpp, not in the source tree).  Rebinds function slot
`fidx`'s declared type only; the clauses are not updated. -/
def UnpackEqns.update_fn_type (s : UnpackEqns) (fidx : Nat) (ty : Expr) : Expr × UnpackEqns :=
  match s.m_locals.stack[fidx]? with
  | some d =>
      (s.m_fns.getD fidx (.fvar 0),
       { s with m_locals := ⟨s.m_locals.next, s.m_locals.stack.set fidx ⟨d.id, d.nm, ty⟩⟩ })
  | none => (s.m_fns.getD fidx (.fvar 0), s)

/-- Accessor `get_num_fns` (util.h line 45, defined inline). -/
def UnpackEqns.get_num_fns (s : UnpackEqns) : Nat := s.m_fns.length

/-- Accessor `get_fn` (util.h line 46, defined inline). -/
def UnpackEqns.get_fn (s : UnpackEqns) (fidx : Nat) : Expr := s.m_fns.getD fidx (.fvar 0)

/-- Accessor `get_eqns_of` (util.h line 47, defined inline). -/
def UnpackEqns.get_eqns_of (s : UnpackEqns) (fidx : Nat) : List Expr := s.m_eqs.getD fidx []

/-- Mutation through the non-const `get_eqns_of` accessor (util.h line
47): the caller replaces slot `fidx`'s clause buffer. -/
def UnpackEqns.set_eqns_of (s : UnpackEqns) (fidx : Nat) (cs : List Expr) : UnpackEqns :=
  { s with m_eqs := s.m_eqs.set fidx cs }

/-- Accessor `get_arity_of` (util.h line 49, defined inline). -/
def UnpackEqns.get_arity_of (s : UnpackEqns) (fidx : Nat) : Nat := s.m_arity.getD fidx 0

/-- Whether `fn` is a placeholder occurring free in `e`. -/
def occursE (fn : Expr) (e : Expr) : Bool :=
  match fn with
  | .fvar x => occursF x e
  | _ => false

/-- Whether some function placeholder of the group occurs in the rhs of
the given clause. -/
def clauseRefs (vctx : type_context) (fns : List Expr) (c : Expr) : Bool :=
  match unpack_eqn vctx c with
  | .ok u => fns.any (fun fn => occursE fn u.m_rhs)
  | .error _ => false

/-- Modelled from the spec: `is_recursive_eqns` (util.h lines 89-92;
body in util.cpp, not in the source tree).  Decodes the group and
scans every clause's rhs for a free occurrence of any function slot's
placeholder; occurrences re-bound by binders met during the scan are
de Bruijn indices, not placeholders, so they are skipped by
construction. -/
def is_recursive_eqns (ctx : type_context) (e : Expr) : Except Unit Bool :=
  match unpack_eqns ctx e with
  | .error _ => throw_ill_formed_eqns
  | .ok s =>
      .ok (s.m_eqs.any (fun cs => cs.any (clauseRefs ⟨ctx.env, s.m_locals.next⟩ s.m_fns)))

/-- Interface object over the environment, mirroring class
`eqns_env_interface` (util.h lines 76-87).  The field `m_env` stores a
copy of the environment, exactly as the inline constructors at lines
79-80 do. -/
structure eqns_env_interface where
  m_env : environment

/-- The inline constructor `eqns_env_interface(environment const &)`
(util.h line 79): copies the environment. -/
def eqns_env_interface.ofEnv (env : environment) : eqns_env_interface := ⟨env⟩

/-- The inline constructor `eqns_env_interface(type_context const &)`
(util.h line 80): copies the context's environment at construction
time. -/
def eqns_env_interface.ofCtx (ctx : type_context) : eqns_env_interface := ⟨ctx.env⟩

/-- Modelled from the spec: `is_inductive` on a name (util.h line 82;
body in util.cpp, not in the source tree) — a read-only registry
lookup. -/
def eqns_env_interface.is_inductive_name (I : eqns_env_interface) (n : Name) : Bool :=
  (I.m_env.ind_info n).isSome

/-- Modelled from the spec: `is_inductive` on an expression (util.h
line 83; body in util.cpp, not in the source tree). -/
def eqns_env_interface.is_inductive_expr (I : eqns_env_interface) (e : Expr) : Bool :=
  match e with
  | .const n => I.is_inductive_name n
  | _ => false

/-- Modelled from the spec: `is_constructor` (util.h line 84; body in
util.cpp, not in the source tree) — returns the inductive family of a
constructor expression, if any. -/
def eqns_env_interface.is_constructor (I : eqns_env_interface) (e : Expr) : Option Name :=
  match e with
  | .const n => I.m_env.constr_family n
  | _ => none

/-- Modelled from the spec: `get_inductive_num_params` (util.h line 85;
body in util.cpp, not in the source tree).  Precondition: the name is
inductive; on other names the result is unspecified junk, not an
error. -/
def eqns_env_interface.get_inductive_num_params (I : eqns_env_interface) (n : Name) : Nat :=
  ((I.m_env.ind_info n).getD ⟨0, 0⟩).num_params

/-- Modelled from the spec: `get_inductive_num_indices` (util.h line
86; body in util.cpp, not in the source tree).  Precondition: the name
is inductive; on other names the result is unspecified junk, not an
error. -/
def eqns_env_interface.get_inductive_num_indices (I : eqns_env_interface) (n : Name) : Nat :=
  ((I.m_env.ind_info n).getD ⟨0, 0⟩).num_indices

/-! Concrete terms used by the witnesses: the spec's example groups
`{A(n) = if n=0 then 0 else B(n-1), B(n) = A(n)}` and `{C(n) = n+1}`,
an empty group, and a group whose clause omits the `wrap`
indirection.  Constant numbering: 9 ↦ the scalar type, 10 ↦ ite,
11 ↦ eq, 12 ↦ zero, 13 ↦ sub, 14 ↦ one, 15 ↦ add. -/

/-- An elaboration context with an empty registry and fresh counter 0. -/
def ctx0 : type_context := ⟨⟨fun _ => none, fun _ => none⟩, 0⟩

/-- Clause `A n = if n = 0 then 0 else B (n-1)` in wire form (inside
the group, `A` is de Bruijn index 1 and `B` index 0 before the clause
binder, hence 2 and 1 under it). -/
def clauseA : Expr :=
  .wrap (.lam 5 (.const 9) (.eqn (.app (.bvar 2) (.bvar 0))
    (.app (.app (.app (.const 10) (.app (.app (.const 11) (.bvar 0)) (.const 12))) (.const 12))
      (.app (.bvar 1) (.app (.app (.const 13) (.bvar 0)) (.const 14))))))

/-- Clause `B n = A n` in wire form. -/
def clauseB : Expr :=
  .wrap (.lam 5 (.const 9) (.eqn (.app (.bvar 1) (.bvar 0)) (.app (.bvar 2) (.bvar 0))))

/-- The mutually recursive example group of the spec. -/
def exAB : Expr :=
  .group 2 (.lam 0 (.pi 5 (.const 9) (.const 9)) (.lam 1 (.pi 5 (.const 9) (.const 9))
    (.consE (.consE clauseA .nilE) (.consE (.consE clauseB .nilE) .nilE))))

/-- Clause `C n = n + 1` in wire form. -/
def clauseC : Expr :=
  .wrap (.lam 5 (.const 9) (.eqn (.app (.bvar 1) (.bvar 0))
    (.app (.app (.const 15) (.bvar 0)) (.const 14))))

/-- The non-recursive example group of the spec. -/
def exC : Expr :=
  .group 1 (.lam 2 (.pi 5 (.const 9) (.const 9)) (.consE (.consE clauseC .nilE) .nilE))

/-- The empty group. -/
def exEmpty : Expr := .group 0 .nilE

/-- A group whose single clause omits the `wrap` indirection. -/
def exMissingWrap : Expr :=
  .group 1 (.lam 2 (.pi 5 (.const 9) (.const 9))
    (.consE (.consE (.lam 5 (.const 9) (.eqn (.app (.bvar 1) (.bvar 0)) (.bvar 0))) .nilE) .nilE))

/-- Total wrapper around group decoding, used to name the decoded state
of a concrete group in closed witness statements. -/
def decodeGroup (ctx : type_context) (e : Expr) : UnpackEqns :=
  match unpack_eqns ctx e with
  | .ok s => s
  | .error _ => ⟨⟨0, []⟩, .nilE, [], [], []⟩

/-- Total wrapper around clause decoding, used to name the decoded
state of a concrete clause in closed witness statements. -/
def decodeEqn (ctx : type_context) (e : Expr) : UnpackEqn :=
  match unpack_eqn ctx e with
  | .ok u => u
  | .error _ => ⟨.nilE, ⟨0, []⟩, false, [], .nilE, .nilE, .nilE⟩

/-- The declarations appended by iterating `add_var` over a list of
name/type pairs, starting from counter `nx`. -/
def psDecls (nx : Nat) : List (Name × Expr) → List LocalDecl
  | [] => []
  | (n, ty) :: ps => ⟨nx, n, ty⟩ :: psDecls (nx+1) ps

/-- The function-slot binder telescope and clause-list payload of a
group term, read back off the wire format. -/
def groupBinders (e : Expr) : Option (List (Name × Expr) × Expr) :=
  match e with
  | .group n b =>
      match collectFns n b with
      | .ok r => some r
      | .error _ => none
  | _ => none

/-- A tiny inductive registry used by witnesses: name 5 is an inductive
with two parameters and one index; name 7 is a constructor of it. -/
def envW : environment :=
  ⟨fun n => if n = 5 then some ⟨2, 1⟩ else none,
   fun n => if n = 7 then some 5 else none⟩

/-- A context over `envW` with fresh counter 0. -/
def ctxA : type_context := ⟨envW, 0⟩

/-- A context over `envW` whose mutable fresh counter has advanced. -/
def ctxB : type_context := ⟨envW, 42⟩

/-- A standalone well-scoped clause `f n = n` (with `f` a constant), in
wire form; used by witnesses that re-decode a repacked clause. -/
def clauseS : Expr :=
  .wrap (.lam 5 (.const 9) (.eqn (.app (.const 20) (.bvar 0)) (.bvar 0)))

/-! Basic facts about list positions and identifier ranges. -/

theorem getD_mem : ∀ {ys : List Nat} {j : Nat}, j < ys.length → ys.getD j 0 ∈ ys := by
  intro ys
  induction ys with
  | nil => intro j h; simp at h
  | cons y ys ih =>
      intro j h
      cases j with
      | zero => simp
      | succ j =>
          rw [List.getD_cons_succ]
          exact List.mem_cons_of_mem y (ih (by simpa using h))

theorem idxOfN_lt_length {x : Nat} : ∀ {ys : List Nat}, x ∈ ys → idxOfN x ys < ys.length := by
  intro ys
  induction ys with
  | nil => intro h; simp at h
  | cons y ys ih =>
      intro h
      by_cases hx : x = y
      · simp [idxOfN, hx]
      · have hmem : x ∈ ys := by
          rcases List.mem_cons.mp h with h1 | h1
          · exact absurd h1 hx
          · exact h1
        simp only [idxOfN, if_neg hx, List.length_cons]
        exact Nat.succ_lt_succ (ih hmem)

theorem getD_idxOfN {x : Nat} : ∀ {ys : List Nat}, x ∈ ys → ys.getD (idxOfN x ys) 0 = x := by
  intro ys
  induction ys with
  | nil => intro h; simp at h
  | cons y ys ih =>
      intro h
      by_cases hx : x = y
      · subst hx; simp [idxOfN]
      · have hmem : x ∈ ys := by
          rcases List.mem_cons.mp h with h1 | h1
          · exact absurd h1 hx
          · exact h1
        simp only [idxOfN, if_neg hx, List.getD_cons_succ]
        exact ih hmem

theorem idxOfN_getD : ∀ {ys : List Nat}, ys.Nodup → ∀ {j : Nat}, j < ys.length →
    idxOfN (ys.getD j 0) ys = j := by
  intro ys
  induction ys with
  | nil => intro _ j h; simp at h
  | cons y ys ih =>
      intro hnd j h
      rw [List.nodup_cons] at hnd
      cases j with
      | zero => simp [idxOfN]
      | succ j =>
          have hj : j < ys.length := by simpa using h
          have hne : ys.getD j 0 ≠ y := by
            intro hEq
            exact hnd.1 (hEq ▸ getD_mem hj)
          simp only [List.getD_cons_succ, idxOfN, if_neg hne]
          rw [ih hnd.2 hj]

theorem idsFrom_length : ∀ (k s : Nat), (idsFrom s k).length = k := by
  intro k
  induction k with
  | zero => intro s; rfl
  | succ k ih => intro s; simp [idsFrom, ih]

theorem mem_idsFrom : ∀ (k s x : Nat), x ∈ idsFrom s k ↔ s ≤ x ∧ x < s + k := by
  intro k
  induction k with
  | zero => intro s x; simp [idsFrom]
  | succ k ih => intro s x; simp [idsFrom, List.mem_cons, ih]; omega

theorem idsFrom_nodup : ∀ (k s : Nat), (idsFrom s k).Nodup := by
  intro k
  induction k with
  | zero => intro s; simp [idsFrom]
  | succ k ih =>
      intro s
      rw [show idsFrom s (k+1) = s :: idsFrom (s+1) k from rfl, List.nodup_cons]
      refine ⟨fun h => ?_, ih (s+1)⟩
      have := (mem_idsFrom k (s+1) s).mp h
      omega

theorem idsFrom_append : ∀ (m s k : Nat), idsFrom s m ++ idsFrom (s + m) k = idsFrom s (m + k) := by
  intro m
  induction m with
  | zero => intro s k; simp [idsFrom]
  | succ m ih =>
      intro s k
      have h2 : m + 1 + k = (m + k) + 1 := by omega
      rw [h2]
      show (s :: idsFrom (s+1) m) ++ idsFrom (s + (m+1)) k = s :: idsFrom (s+1) (m+k)
      rw [show s + (m+1) = (s+1) + m by omega, List.cons_append, ih]

/-! The open/close algebra on terms. -/

theorem openAll_nil : ∀ (e : Expr) (d : Nat), openAll [] d e = e := by
  intro e
  induction e <;> intro d <;> simp [openAll, *]

theorem closeAll_nil : ∀ (e : Expr) (d : Nat), closeAll [] d e = e := by
  intro e
  induction e <;> intro d <;> simp [closeAll, *]

theorem openAll_cons (x : Nat) (xs : List Nat) : ∀ (e : Expr) (d : Nat),
    openAll (x :: xs) d e = openAll [x] d (openAll xs (d+1) e) := by
  intro e
  induction e <;> intro d
  case bvar i =>
    simp only [openAll, List.length_cons]
    by_cases h2 : d + 1 ≤ i ∧ i - (d + 1) < xs.length
    · rw [if_pos h2, if_pos (by omega : d ≤ i ∧ i - d < xs.length + 1)]
      simp only [openAll]
      congr 1
      rw [show i - d = (i - (d+1)) + 1 by omega, List.getD_cons_succ]
    · rw [if_neg h2]
      simp only [openAll]
      by_cases h1 : d ≤ i ∧ i - d < xs.length + 1
      · have hid : i = d := by omega
        rw [if_pos h1, if_pos (by simp; omega)]
        subst hid
        simp
      · rw [if_neg h1, if_neg (by simp; omega)]
  all_goals simp [openAll, *]

theorem closeAll_comp (x : Nat) (xs : List Nat) : ∀ (e : Expr) (d : Nat),
    closeAll xs (d+1) (closeAll [x] d e) = closeAll (x :: xs) d e := by
  intro e
  induction e <;> intro d
  case fvar y =>
    by_cases hx : y = x
    · subst hx
      simp [closeAll, idxOfN]
    · by_cases hxs : y ∈ xs
      · have h1 : closeAll [x] d (Expr.fvar y) = .fvar y := by simp [closeAll, hx]
        rw [h1]
        have h2 : idxOfN y (x :: xs) = idxOfN y xs + 1 := by simp [idxOfN, hx]
        simp only [closeAll, List.mem_cons]
        rw [if_pos hxs, if_pos (Or.inr hxs), h2]
        congr 1
        omega
      · have h1 : closeAll [x] d (Expr.fvar y) = .fvar y := by simp [closeAll, hx]
        rw [h1]
        have hn : ¬ (y = x ∨ y ∈ xs) := by
          intro h; rcases h with h | h
          · exact hx h
          · exact hxs h
        simp only [closeAll, List.mem_cons]
        rw [if_neg hxs, if_neg hn]
  all_goals simp [closeAll, *]

theorem openAll_closeAll (xs : List Nat) : ∀ (e : Expr) (d : Nat),
    LCb d e = true → openAll xs d (closeAll xs d e) = e := by
  intro e
  induction e <;> intro d h
  case bvar i =>
    simp only [LCb, decide_eq_true_eq] at h
    simp only [closeAll, openAll]
    rw [if_neg (by omega)]
  case fvar y =>
    by_cases hy : y ∈ xs
    · simp only [closeAll, if_pos hy, openAll]
      rw [if_pos ⟨by omega, by simpa using idxOfN_lt_length hy⟩]
      rw [show d + idxOfN y xs - d = idxOfN y xs by omega, getD_idxOfN hy]
    · simp [closeAll, hy, openAll]
  case lam nm ty b ihty ihb =>
    simp only [LCb, Bool.and_eq_true] at h
    simp [closeAll, openAll, ihty d h.1, ihb (d+1) h.2]
  case pi nm ty b ihty ihb =>
    simp only [LCb, Bool.and_eq_true] at h
    simp [closeAll, openAll, ihty d h.1, ihb (d+1) h.2]
  all_goals
    simp only [LCb, Bool.and_eq_true] at h
    simp [closeAll, openAll, *]

theorem closeAll_openAll (xs : List Nat) (hnd : xs.Nodup) : ∀ (e : Expr) (d : Nat),
    (∀ x ∈ xs, occursF x e = false) → closeAll xs d (openAll xs d e) = e := by
  intro e
  induction e <;> intro d h
  case bvar i =>
    simp only [openAll]
    by_cases hc : d ≤ i ∧ i - d < xs.length
    · rw [if_pos hc]
      simp only [closeAll]
      rw [if_pos (getD_mem hc.2), idxOfN_getD hnd hc.2]
      congr 1
      omega
    · rw [if_neg hc]
      simp [closeAll]
  case fvar y =>
    have hy : y ∉ xs := by
      intro hy
      have := h y hy
      simp [occursF] at this
    simp [openAll, closeAll, hy]
  case app f a ihf iha =>
    have hf : ∀ x ∈ xs, occursF x f = false := by
      intro x hx; have := h x hx; simp [occursF] at this; exact this.1
    have ha : ∀ x ∈ xs, occursF x a = false := by
      intro x hx; have := h x hx; simp [occursF] at this; exact this.2
    simp [openAll, closeAll, ihf d hf, iha d ha]
  case lam nm ty b ihty ihb =>
    have h1 : ∀ x ∈ xs, occursF x ty = false := by
      intro x hx; have := h x hx; simp [occursF] at this; exact this.1
    have h2 : ∀ x ∈ xs, occursF x b = false := by
      intro x hx; have := h x hx; simp [occursF] at this; exact this.2
    simp [openAll, closeAll, ihty d h1, ihb (d+1) h2]
  case pi nm ty b ihty ihb =>
    have h1 : ∀ x ∈ xs, occursF x ty = false := by
      intro x hx; have := h x hx; simp [occursF] at this; exact this.1
    have h2 : ∀ x ∈ xs, occursF x b = false := by
      intro x hx; have := h x hx; simp [occursF] at this; exact this.2
    simp [openAll, closeAll, ihty d h1, ihb (d+1) h2]
  case eqn l r ihl ihr =>
    have h1 : ∀ x ∈ xs, occursF x l = false := by
      intro x hx; have := h x hx; simp [occursF] at this; exact this.1
    have h2 : ∀ x ∈ xs, occursF x r = false := by
      intro x hx; have := h x hx; simp [occursF] at this; exact this.2
    simp [openAll, closeAll, ihl d h1, ihr d h2]
  case wrap e ihe =>
    have h1 : ∀ x ∈ xs, occursF x e = false := by
      intro x hx; have := h x hx; simpa [occursF] using this
    simp [openAll, closeAll, ihe d h1]
  case consE c r ihc ihr =>
    have h1 : ∀ x ∈ xs, occursF x c = false := by
      intro x hx; have := h x hx; simp [occursF] at this; exact this.1
    have h2 : ∀ x ∈ xs, occursF x r = false := by
      intro x hx; have := h x hx; simp [occursF] at this; exact this.2
    simp [openAll, closeAll, ihc d h1, ihr d h2]
  case group n b ihb =>
    have h1 : ∀ x ∈ xs, occursF x b = false := by
      intro x hx; have := h x hx; simpa [occursF] using this
    simp [openAll, closeAll, ihb d h1]
  all_goals simp [openAll, closeAll]

theorem occursF_openAll {x : Nat} {xs : List Nat} (hx : x ∉ xs) :
    ∀ (e : Expr) (d : Nat), occursF x e = false → occursF x (openAll xs d e) = false := by
  intro e
  induction e <;> intro d h
  case bvar i =>
    simp only [openAll]
    by_cases hc : d ≤ i ∧ i - d < xs.length
    · rw [if_pos hc]
      simp only [occursF, decide_eq_false_iff_not]
      intro hEq
      exact hx (hEq ▸ getD_mem hc.2)
    · rw [if_neg hc]
      simp [occursF]
  all_goals simp_all [occursF, openAll]

theorem occursF_closeAll_self {x : Nat} {xs : List Nat} (hx : x ∈ xs) :
    ∀ (e : Expr) (d : Nat), occursF x (closeAll xs d e) = false := by
  intro e
  induction e <;> intro d
  case fvar y =>
    by_cases hy : y ∈ xs
    · simp [closeAll, hy, occursF]
    · simp only [closeAll, if_neg hy, occursF, decide_eq_false_iff_not]
      intro hEq
      exact hy (hEq ▸ hx)
  all_goals simp [closeAll, occursF, *]

theorem occursF_closeAll {x : Nat} {xs : List Nat} :
    ∀ (e : Expr) (d : Nat), occursF x e = false → occursF x (closeAll xs d e) = false := by
  intro e
  induction e <;> intro d h
  case fvar y =>
    by_cases hy : y ∈ xs
    · simp [closeAll, hy, occursF]
    · simpa [closeAll, hy, occursF] using h
  all_goals simp_all [occursF, closeAll]

theorem LCb_openAll (xs : List Nat) : ∀ (e : Expr) (d : Nat),
    LCb (d + xs.length) e = true → LCb d (openAll xs d e) = true := by
  intro e
  induction e <;> intro d h
  case bvar i =>
    simp only [LCb, decide_eq_true_eq] at h
    simp only [openAll]
    by_cases hc : d ≤ i ∧ i - d < xs.length
    · rw [if_pos hc]; simp [LCb]
    · rw [if_neg hc]; simp only [LCb, decide_eq_true_eq]; omega
  case lam nm ty b ihty ihb =>
    simp only [LCb, Bool.and_eq_true] at h
    have hb : LCb (d + 1 + xs.length) b = true := by
      have := h.2
      rwa [show d + xs.length + 1 = d + 1 + xs.length by omega] at this
    simp [openAll, LCb, ihty d h.1, ihb (d+1) hb]
  case pi nm ty b ihty ihb =>
    simp only [LCb, Bool.and_eq_true] at h
    have hb : LCb (d + 1 + xs.length) b = true := by
      have := h.2
      rwa [show d + xs.length + 1 = d + 1 + xs.length by omega] at this
    simp [openAll, LCb, ihty d h.1, ihb (d+1) hb]
  all_goals
    simp only [LCb, Bool.and_eq_true] at h
    simp [openAll, LCb, *]

theorem fvarsBelow_mono {n m : Nat} (hnm : n ≤ m) : ∀ (e : Expr),
    fvarsBelow n e = true → fvarsBelow m e = true := by
  intro e
  induction e <;> intro h <;> simp_all [fvarsBelow]
  case fvar y => omega

theorem fvarsBelow_occursF {n x : Nat} (hx : n ≤ x) : ∀ (e : Expr),
    fvarsBelow n e = true → occursF x e = false := by
  intro e
  induction e <;> intro h <;> simp_all [fvarsBelow, occursF]
  case fvar y => omega

theorem fvarsBelow_openAll {n : Nat} {xs : List Nat} (hxs : ∀ x ∈ xs, x < n) :
    ∀ (e : Expr) (d : Nat), fvarsBelow n e = true → fvarsBelow n (openAll xs d e) = true := by
  intro e
  induction e <;> intro d h
  case bvar i =>
    simp only [openAll]
    by_cases hc : d ≤ i ∧ i - d < xs.length
    · rw [if_pos hc]
      simp only [fvarsBelow, decide_eq_true_eq]
      exact hxs _ (getD_mem hc.2)
    · rw [if_neg hc]; simp [fvarsBelow]
  all_goals simp_all [fvarsBelow, openAll]

theorem fvarsBelow_closeAll {n : Nat} {xs : List Nat} :
    ∀ (e : Expr) (d : Nat), fvarsBelow n e = true → fvarsBelow n (closeAll xs d e) = true := by
  intro e
  induction e <;> intro d h
  case fvar y =>
    by_cases hy : y ∈ xs
    · simp [closeAll, hy, fvarsBelow]
    · simpa [closeAll, hy, fvarsBelow] using h
  all_goals simp_all [fvarsBelow, closeAll]

theorem closeAll_comp0 (x : Nat) (xs : List Nat) (e : Expr) :
    closeAll xs 1 (closeAll [x] 0 e) = closeAll (x :: xs) 0 e :=
  closeAll_comp x xs e 0

theorem openAll_cons0 (x : Nat) (xs : List Nat) (e : Expr) :
    openAll (x :: xs) 0 e = openAll [x] 0 (openAll xs 1 e) :=
  openAll_cons x xs e 0

/-! Telescope lemmas. -/

theorem tele_collectLams : ∀ (e : Expr), tele (collectLams e).1 (collectLams e).2 = e := by
  intro e
  induction e <;> simp [collectLams, tele, *]

theorem collect_tele : ∀ (bs : List (Name × Expr)) (core : Expr), isLamE core = false →
    collectLams (tele bs core) = (bs, core) := by
  intro bs
  induction bs with
  | nil =>
      intro core h
      cases core
      case lam => simp [isLamE] at h
      all_goals simp [tele, collectLams]
  | cons b bs ih =>
      intro core h
      cases b with
      | mk n ty => simp [tele, collectLams, ih core h]

theorem collectFns_ok : ∀ (n : Nat) (e : Expr) (r : List (Name × Expr) × Expr),
    collectFns n e = .ok r → tele r.1 r.2 = e ∧ r.1.length = n := by
  intro n
  induction n with
  | zero =>
      intro e r h
      simp only [collectFns, Except.ok.injEq] at h
      subst h
      simp [tele]
  | succ n ih =>
      intro e r h
      cases e <;> simp only [collectFns, throw_ill_formed_eqns] at h <;> try exact absurd h (by simp)
      case lam nm ty b =>
        cases h2 : collectFns n b with
        | error u => rw [h2] at h; simp at h
        | ok r2 =>
            rw [h2] at h
            simp only [Except.ok.injEq] at h
            subst h
            obtain ⟨h3, h4⟩ := ih b r2 h2
            refine ⟨?_, by simp [h4]⟩
            simp [tele, h3]

theorem collectFns_tele : ∀ (bs : List (Name × Expr)) (core : Expr),
    collectFns bs.length (tele bs core) = .ok (bs, core) := by
  intro bs
  induction bs with
  | nil => intro core; simp [collectFns, tele]
  | cons b bs ih =>
      intro core
      cases b with
      | mk n ty => simp [tele, collectFns, ih core]

theorem asList_toListE : ∀ {e : Expr} {l : List Expr}, asList e = some l → toListE l = e := by
  intro e
  induction e <;> intro l h <;> simp only [asList, Option.some.injEq, reduceCtorEq] at h
  case nilE =>
    subst h
    rfl
  case consE c r ihc ihr =>
    cases h2 : asList r with
    | none => rw [h2] at h; simp at h
    | some l2 =>
        rw [h2] at h
        simp only [Option.some.injEq] at h
        subst h
        simp [toListE, ihr h2]

theorem decListList_some : ∀ {ss : List Expr} {css : List (List Expr)},
    decListList ss = some css → css.map toListE = ss ∧ css.length = ss.length := by
  intro ss
  induction ss with
  | nil =>
      intro css h
      simp only [decListList, Option.some.injEq] at h
      subst h
      simp
  | cons s ss ih =>
      intro css h
      simp only [decListList] at h
      cases h1 : asList s with
      | none => rw [h1] at h; simp at h
      | some cs =>
          cases h2 : decListList ss with
          | none => rw [h1, h2] at h; simp at h
          | some css2 =>
              rw [h1, h2] at h
              simp only [Option.some.injEq] at h
              subst h
              obtain ⟨e1, e2⟩ := ih h2
              simp [e1, e2, asList_toListE h1]

/-! The push/close telescope round trip. -/

theorem pushTele_eq : ∀ (bs : List (Name × Expr)) (nx : Nat) (st : List LocalDecl) (acc : List Nat),
    pushTele ⟨nx, st⟩ acc bs =
      (⟨nx + bs.length, st ++ pushDecls nx acc bs⟩, acc ++ idsFrom nx bs.length) := by
  intro bs
  induction bs with
  | nil => intro nx st acc; simp [pushTele, pushDecls, idsFrom]
  | cons b bs ih =>
      intro nx st acc
      cases b with
      | mk n ty =>
          show pushTele ⟨nx + 1, st ++ [⟨nx, n, openAll acc.reverse 0 ty⟩]⟩ (acc ++ [nx]) bs = _
          rw [ih]
          simp [pushDecls, idsFrom, List.append_assoc, Prod.ext_iff]
          omega

theorem pushDecls_length : ∀ (bs : List (Name × Expr)) (nx : Nat) (acc : List Nat),
    (pushDecls nx acc bs).length = bs.length := by
  intro bs
  induction bs with
  | nil => intro nx acc; rfl
  | cons b bs ih => intro nx acc; cases b; simp [pushDecls, ih]

theorem pushDecls_ids : ∀ (bs : List (Name × Expr)) (nx : Nat) (acc : List Nat),
    (pushDecls nx acc bs).map LocalDecl.id = idsFrom nx bs.length := by
  intro bs
  induction bs with
  | nil => intro nx acc; rfl
  | cons b bs ih =>
      intro nx acc
      cases b with
      | mk n ty => simp [pushDecls, idsFrom, ih]

theorem pushDecls_LC : ∀ (bs : List (Name × Expr)) (nx : Nat) (acc : List Nat) (core : Expr),
    LCb acc.length (tele bs core) = true →
    ∀ d ∈ pushDecls nx acc bs, LCb 0 d.ty = true := by
  intro bs
  induction bs with
  | nil => intro nx acc core _ d hd; simp [pushDecls] at hd
  | cons b bs ih =>
      intro nx acc core h d hd
      cases b with
      | mk n ty =>
          simp only [tele, LCb, Bool.and_eq_true] at h
          simp only [pushDecls, List.mem_cons] at hd
          rcases hd with hd | hd
          · subst hd
            have := LCb_openAll acc.reverse ty 0 (by simpa using h.1)
            simpa using this
          · have h2 : LCb (acc ++ [nx]).length (tele bs core) = true := by
              simpa using h.2
            exact ih (nx+1) (acc ++ [nx]) core h2 d hd

theorem LCb_tele : ∀ (bs : List (Name × Expr)) (a : Nat) (core : Expr),
    LCb a (tele bs core) = true → LCb (a + bs.length) core = true := by
  intro bs
  induction bs with
  | nil => intro a core h; simpa [tele] using h
  | cons b bs ih =>
      intro a core h
      cases b with
      | mk n ty =>
          simp only [tele, LCb, Bool.and_eq_true] at h
          have h2 := ih (a+1) core h.2
          have h3 : a + ((n, ty) :: bs).length = a + 1 + bs.length := by
            simp only [List.length_cons]
            omega
          rw [h3]
          exact h2

theorem openClose_tele : ∀ (bs : List (Name × Expr)) (nx : Nat) (acc : List Nat) (core : Expr),
    fvarsBelow nx (tele bs core) = true → (∀ a ∈ acc, a < nx) →
    mkLambdas (pushDecls nx acc bs) (openAll ((acc ++ idsFrom nx bs.length).reverse) 0 core)
      = openAll acc.reverse 0 (tele bs core) := by
  intro bs
  induction bs with
  | nil =>
      intro nx acc core _ _
      simp [pushDecls, idsFrom, mkLambdas, tele]
  | cons b bs ih =>
      intro nx acc core h hacc
      cases b with
      | mk n ty =>
          simp only [tele, fvarsBelow, Bool.and_eq_true] at h
          have hlist : acc ++ idsFrom nx (bs.length + 1) = (acc ++ [nx]) ++ idsFrom (nx+1) bs.length := by
            rw [show idsFrom nx (bs.length + 1) = nx :: idsFrom (nx+1) bs.length from rfl]
            simp [List.append_assoc]
          have hacc2 : ∀ a ∈ acc ++ [nx], a < nx + 1 := by
            intro a ha
            rcases List.mem_append.mp ha with ha | ha
            · exact Nat.lt_succ_of_lt (hacc a ha)
            · simp at ha; omega
          have hfv2 : fvarsBelow (nx+1) (tele bs core) = true :=
            fvarsBelow_mono (by omega) _ h.2
          have hIH := ih (nx+1) (acc ++ [nx]) core hfv2 hacc2
          have hocc : ∀ x ∈ ([nx] : List Nat), occursF x (openAll acc.reverse 1 (tele bs core)) = false := by
            intro x hx
            have hx2 : x = nx := by simpa using hx
            refine occursF_openAll ?_ (tele bs core) 1 (fvarsBelow_occursF (by omega) _ h.2)
            intro hmem
            rw [List.mem_reverse] at hmem
            have := hacc x hmem
            omega
          show Expr.lam n (openAll acc.reverse 0 ty)
              (closeAll [nx] 0 (mkLambdas (pushDecls (nx+1) (acc ++ [nx]) bs)
                (openAll ((acc ++ idsFrom nx (bs.length+1)).reverse) 0 core)))
            = openAll acc.reverse 0 (tele ((n, ty) :: bs) core)
          rw [hlist, hIH]
          rw [show (acc ++ [nx]).reverse = nx :: acc.reverse by simp]
          rw [openAll_cons0 nx acc.reverse (tele bs core)]
          rw [closeAll_openAll [nx] (by simp) (openAll acc.reverse 1 (tele bs core)) 0 hocc]
          show Expr.lam n (openAll acc.reverse 0 ty) (openAll acc.reverse 1 (tele bs core))
            = openAll acc.reverse 0 (.lam n ty (tele bs core))
          simp [openAll]

theorem closeAll_mkLambdas : ∀ (ds : List LocalDecl) (xs : List Nat) (B : Expr),
    closeAll xs 0 (mkLambdas ds B) = tele (rawT ds xs) (closeAll (revIds ds ++ xs) 0 B) := by
  intro ds
  induction ds with
  | nil => intro xs B; simp [mkLambdas, rawT, revIds, tele]
  | cons d ds ih =>
      intro xs B
      show closeAll xs 0 (.lam d.nm d.ty (closeAll [d.id] 0 (mkLambdas ds B))) = _
      show Expr.lam d.nm (closeAll xs 0 d.ty) (closeAll xs 1 (closeAll [d.id] 0 (mkLambdas ds B))) = _
      rw [closeAll_comp0 d.id xs (mkLambdas ds B)]
      rw [ih (d.id :: xs) B]
      rw [show revIds (d :: ds) ++ xs = revIds ds ++ d.id :: xs by simp [revIds, List.append_assoc]]
      rfl

theorem mkLambdas_eq (ds : List LocalDecl) (B : Expr) :
    mkLambdas ds B = tele (rawT ds []) (closeAll (revIds ds) 0 B) := by
  have h := closeAll_mkLambdas ds [] B
  rwa [closeAll_nil, List.append_nil] at h

theorem revIds_eq_map : ∀ (ds : List LocalDecl), revIds ds = (ds.map LocalDecl.id).reverse := by
  intro ds
  induction ds with
  | nil => rfl
  | cons d ds ih => simp [revIds, ih]

theorem pushTele_rawT : ∀ (ds : List LocalDecl) (nx : Nat) (st : List LocalDecl) (acc : List Nat),
    ds.map LocalDecl.id = idsFrom nx ds.length →
    (∀ d ∈ ds, LCb 0 d.ty = true) →
    pushTele ⟨nx, st⟩ acc (rawT ds acc.reverse) =
      (⟨nx + ds.length, st ++ ds⟩, acc ++ idsFrom nx ds.length) := by
  intro ds
  induction ds with
  | nil => intro nx st acc _ _; simp [rawT, pushTele, idsFrom]
  | cons d ds ih =>
      intro nx st acc hids hlc
      have hid : d.id = nx ∧ ds.map LocalDecl.id = idsFrom (nx+1) ds.length := by
        simpa [idsFrom] using hids
      show pushTele ⟨nx + 1, st ++ [⟨nx, d.nm, openAll acc.reverse 0 (closeAll acc.reverse 0 d.ty)⟩]⟩
          (acc ++ [nx]) (rawT ds (d.id :: acc.reverse)) = _
      rw [openAll_closeAll acc.reverse d.ty 0 (hlc d (List.mem_cons_self d ds))]
      have hrw : (acc ++ [nx]).reverse = d.id :: acc.reverse := by simp [hid.1]
      rw [show rawT ds (d.id :: acc.reverse) = rawT ds ((acc ++ [nx]).reverse) by rw [hrw]]
      have hd : (⟨nx, d.nm, d.ty⟩ : LocalDecl) = d := by
        have h1 := hid.1
        rcases d with ⟨i, n, t⟩
        simp only at h1
        subst h1
        rfl
      rw [hd]
      rw [ih (nx+1) (st ++ [d]) (acc ++ [nx]) hid.2 (fun d2 hd2 => hlc d2 (List.mem_cons_of_mem d hd2))]
      simp [Prod.ext_iff, List.append_assoc, idsFrom]
      omega

/-! Characterizations of the decoders. -/

theorem unpack_eqn_ok : ∀ {ctx : type_context} {e : Expr} {u : UnpackEqn},
    unpack_eqn ctx e = .ok u →
    ∃ body bs l r, e = .wrap body ∧ collectLams body = (bs, .eqn l r) ∧
      u = ⟨e, (pushTele ⟨ctx.ngen, []⟩ [] bs).1, false,
           ((pushTele ⟨ctx.ngen, []⟩ [] bs).2).map Expr.fvar, body,
           openAll ((pushTele ⟨ctx.ngen, []⟩ [] bs).2).reverse 0 l,
           openAll ((pushTele ⟨ctx.ngen, []⟩ [] bs).2).reverse 0 r⟩ := by
  intro ctx e u h
  cases e <;> simp only [unpack_eqn, throw_ill_formed_eqns] at h <;> try exact absurd h (by simp)
  case wrap body =>
    split at h
    · rename_i bs l r heq
      simp only [Except.ok.injEq] at h
      exact ⟨body, bs, l, r, rfl, heq, h.symm⟩
    · simp at h

theorem unpack_eqns_ok : ∀ {ctx : type_context} {e : Expr} {s : UnpackEqns},
    unpack_eqns ctx e = .ok s →
    ∃ nfns body r slots eqss,
      e = .group nfns body ∧
      collectFns nfns body = .ok r ∧
      asList (openAll ((pushTele ⟨ctx.ngen, []⟩ [] r.1).2).reverse 0 r.2) = some slots ∧
      decListList slots = some eqss ∧
      slots.length = nfns ∧
      checkSlots ⟨ctx.env, (pushTele ⟨ctx.ngen, []⟩ [] r.1).1.next⟩
        (((pushTele ⟨ctx.ngen, []⟩ [] r.1).2).map Expr.fvar)
        ((pushTele ⟨ctx.ngen, []⟩ [] r.1).1.stack.map fun d => numPis d.ty) eqss = true ∧
      s = ⟨(pushTele ⟨ctx.ngen, []⟩ [] r.1).1, e,
           ((pushTele ⟨ctx.ngen, []⟩ [] r.1).2).map Expr.fvar,
           (pushTele ⟨ctx.ngen, []⟩ [] r.1).1.stack.map (fun d => numPis d.ty), eqss⟩ := by
  intro ctx e s h
  cases e <;> simp only [unpack_eqns, throw_ill_formed_eqns] at h <;> try exact absurd h (by simp)
  case group nfns body =>
    split at h
    · simp at h
    · rename_i r heq
      split at h
      · simp at h
      · rename_i slots heq2
        split at h
        · simp at h
        · rename_i eqss heq3
          split at h
          · rename_i hcond
            simp only [Except.ok.injEq] at h
            exact ⟨nfns, body, r, slots, eqss, rfl, heq, heq2, heq3, hcond.1, hcond.2, h.symm⟩
          · simp at h

theorem checkEqn_spec : ∀ {vctx : type_context} {fn : Expr} {ar : Nat} {c : Expr},
    checkEqn vctx fn ar c = true →
    ∃ u, unpack_eqn vctx c = .ok u ∧ getAppFn u.m_lhs = fn ∧ getAppNumArgs u.m_lhs = ar := by
  intro vctx fn ar c h
  unfold checkEqn at h
  cases h2 : unpack_eqn vctx c with
  | error u => rw [h2] at h; simp at h
  | ok u =>
      rw [h2] at h
      simp at h
      exact ⟨u, rfl, h.1, h.2⟩

theorem checkSlots_lengths : ∀ {vctx : type_context} (fns : List Expr) (ars : List Nat)
    (eqss : List (List Expr)), checkSlots vctx fns ars eqss = true →
    fns.length = ars.length ∧ ars.length = eqss.length := by
  intro vctx fns
  induction fns with
  | nil =>
      intro ars eqss h
      cases ars with
      | nil =>
          cases eqss with
          | nil => simp
          | cons c cs => simp [checkSlots] at h
      | cons a as => simp [checkSlots] at h
  | cons fn fns ih =>
      intro ars eqss h
      cases ars with
      | nil => simp [checkSlots] at h
      | cons a as =>
          cases eqss with
          | nil => simp [checkSlots] at h
          | cons c cs =>
              simp only [checkSlots, Bool.and_eq_true] at h
              obtain ⟨h1, h2⟩ := ih as cs h.2
              simp [h1, h2]

theorem checkSlots_spec : ∀ {vctx : type_context} (fns : List Expr) (ars : List Nat)
    (eqss : List (List Expr)), checkSlots vctx fns ars eqss = true →
    ∀ (i : Nat) (c : Expr), c ∈ eqss.getD i [] →
      checkEqn vctx (fns.getD i (.fvar 0)) (ars.getD i 0) c = true := by
  intro vctx fns
  induction fns with
  | nil =>
      intro ars eqss h i c hc
      cases ars with
      | nil =>
          cases eqss with
          | nil => simp at hc
          | cons c2 cs => simp [checkSlots] at h
      | cons a as => simp [checkSlots] at h
  | cons fn fns ih =>
      intro ars eqss h i c hc
      cases ars with
      | nil => simp [checkSlots] at h
      | cons a as =>
          cases eqss with
          | nil => simp [checkSlots] at h
          | cons cs css =>
              simp only [checkSlots, Bool.and_eq_true] at h
              cases i with
              | zero =>
                  simp only [List.getD_cons_zero] at hc ⊢
                  exact List.all_eq_true.mp h.1 c hc
              | succ i =>
                  simp only [List.getD_cons_succ] at hc ⊢
                  exact ih as css h.2 i c hc

theorem clauseRefs_iff : ∀ {vctx : type_context} {fns : List Expr} {c : Expr},
    clauseRefs vctx fns c = true ↔
      ∃ u, unpack_eqn vctx c = .ok u ∧ ∃ fn ∈ fns, occursE fn u.m_rhs = true := by
  intro vctx fns c
  unfold clauseRefs
  cases h2 : unpack_eqn vctx c with
  | error u => simp
  | ok u => simp [List.any_eq_true]

/-! The state after iterated add_var. -/

theorem addVars_eq : ∀ (ps : List (Name × Expr)) (u : UnpackEqn),
    (addVars u ps).m_locals.next = u.m_locals.next + ps.length ∧
    (addVars u ps).m_locals.stack = u.m_locals.stack ++ psDecls u.m_locals.next ps ∧
    (addVars u ps).m_lhs = u.m_lhs ∧
    (addVars u ps).m_rhs = u.m_rhs ∧
    (addVars u ps).m_vars.length = u.m_vars.length + ps.length := by
  intro ps
  induction ps with
  | nil => intro u; simp [addVars, psDecls]
  | cons p ps ih =>
      intro u
      cases p with
      | mk n ty =>
          obtain ⟨e1, e2, e3, e4, e5⟩ := ih (u.add_var n ty).2
          have hl : addVars u ((n, ty) :: ps) = addVars (u.add_var n ty).2 ps := rfl
          refine ⟨?_, ?_, ?_, ?_, ?_⟩
          · rw [hl, e1]; simp [UnpackEqn.add_var]; try omega
          · rw [hl, e2]; simp [UnpackEqn.add_var, psDecls, List.append_assoc]
          · rw [hl, e3]; simp [UnpackEqn.add_var]
          · rw [hl, e4]; simp [UnpackEqn.add_var]
          · rw [hl, e5]; simp [UnpackEqn.add_var]; try omega

theorem psDecls_ids : ∀ (ps : List (Name × Expr)) (nx : Nat),
    (psDecls nx ps).map LocalDecl.id = idsFrom nx ps.length := by
  intro ps
  induction ps with
  | nil => intro nx; rfl
  | cons p ps ih =>
      intro nx
      cases p with
      | mk n ty => simp [psDecls, idsFrom, ih]

theorem psDecls_LC : ∀ (ps : List (Name × Expr)) (nx : Nat),
    (∀ p ∈ ps, LCb 0 p.2 = true) → ∀ d ∈ psDecls nx ps, LCb 0 d.ty = true := by
  intro ps
  induction ps with
  | nil => intro nx _ d hd; simp [psDecls] at hd
  | cons p ps ih =>
      intro nx h d hd
      cases p with
      | mk n ty =>
          simp only [psDecls, List.mem_cons] at hd
          rcases hd with hd | hd
          · subst hd
            exact h (n, ty) (List.mem_cons_self _ _)
          · exact ih (nx+1) (fun p hp => h p (List.mem_cons_of_mem _ hp)) d hd

theorem openAll_eqn (xs : List Nat) (d : Nat) (l r : Expr) :
    openAll xs d (.eqn l r) = .eqn (openAll xs d l) (openAll xs d r) := rfl

theorem unpack_eqn_ok2 : ∀ {ctx : type_context} {e : Expr} {u : UnpackEqn},
    unpack_eqn ctx e = .ok u →
    ∃ body bs l r,
      e = .wrap body ∧ collectLams body = (bs, .eqn l r) ∧
      u.m_src = e ∧
      u.m_locals = ⟨ctx.ngen + bs.length, pushDecls ctx.ngen [] bs⟩ ∧
      u.m_vars = (idsFrom ctx.ngen bs.length).map Expr.fvar ∧
      u.m_lhs = openAll (idsFrom ctx.ngen bs.length).reverse 0 l ∧
      u.m_rhs = openAll (idsFrom ctx.ngen bs.length).reverse 0 r := by
  intro ctx e u h
  obtain ⟨body, bs, l, r, he, hc, hu⟩ := unpack_eqn_ok h
  have hp := pushTele_eq bs ctx.ngen [] []
  refine ⟨body, bs, l, r, he, hc, ?_, ?_, ?_, ?_, ?_⟩ <;> subst hu <;> simp [hp]

theorem unpack_eqn_repack : ∀ {ctx : type_context} {e : Expr} {u : UnpackEqn},
    fvarsBelow ctx.ngen e = true → unpack_eqn ctx e = .ok u → u.repack = e := by
  intro ctx e u hfv h
  obtain ⟨body, bs, l, r, he, hc, hm, hlocal, hvars, hlhs, hrhs⟩ := unpack_eqn_ok2 h
  subst he
  have hbody : tele bs (.eqn l r) = body := by
    have h2 := tele_collectLams body
    rw [hc] at h2
    exact h2
  have hfv2 : fvarsBelow ctx.ngen (tele bs (.eqn l r)) = true := by
    rw [hbody]
    simpa [fvarsBelow] using hfv
  have hG := openClose_tele bs ctx.ngen [] (.eqn l r) hfv2 (by intro a ha; simp at ha)
  rw [List.nil_append, List.reverse_nil, openAll_nil] at hG
  show Expr.wrap (mkLambdas u.m_locals.stack (.eqn u.m_lhs u.m_rhs)) = .wrap body
  rw [hlocal, hlhs, hrhs]
  rw [← openAll_eqn, show (⟨ctx.ngen + bs.length, pushDecls ctx.ngen [] bs⟩ : tmp_locals).stack
      = pushDecls ctx.ngen [] bs from rfl]
  rw [hG, hbody]

theorem unpack_eqns_ok2 : ∀ {ctx : type_context} {e : Expr} {s : UnpackEqns},
    unpack_eqns ctx e = .ok s →
    ∃ nfns body r slots eqss,
      e = .group nfns body ∧
      collectFns nfns body = .ok r ∧
      asList (openAll (idsFrom ctx.ngen r.1.length).reverse 0 r.2) = some slots ∧
      decListList slots = some eqss ∧
      slots.length = nfns ∧
      checkSlots ⟨ctx.env, ctx.ngen + r.1.length⟩ ((idsFrom ctx.ngen r.1.length).map Expr.fvar)
        ((pushDecls ctx.ngen [] r.1).map fun d => numPis d.ty) eqss = true ∧
      s.m_locals = ⟨ctx.ngen + r.1.length, pushDecls ctx.ngen [] r.1⟩ ∧
      s.m_src = e ∧
      s.m_fns = (idsFrom ctx.ngen r.1.length).map Expr.fvar ∧
      s.m_arity = (pushDecls ctx.ngen [] r.1).map (fun d => numPis d.ty) ∧
      s.m_eqs = eqss := by
  intro ctx e s h
  obtain ⟨nfns, body, r, slots, eqss, he, hc, ha, hd, hl, hcs, hs⟩ := unpack_eqns_ok h
  have hp := pushTele_eq r.1 ctx.ngen [] []
  rw [hp] at ha hcs hs
  simp only [List.nil_append] at ha hcs hs
  refine ⟨nfns, body, r, slots, eqss, he, hc, ha, hd, hl, hcs, ?_, ?_, ?_, ?_, ?_⟩ <;>
    subst hs <;> rfl

/-- Names the claim C1.  For every well-formed equation-group term `e`
(decoding succeeds, and the ambient fresh counter is indeed fresh for
`e`), decoding with the group codec and repacking with no mutation in
between yields a term structurally equal to `e`. -/
theorem c1_group_roundtrip : ∀ (ctx : type_context) (e : Expr) (s : UnpackEqns),
    fvarsBelow ctx.ngen e = true → unpack_eqns ctx e = .ok s → s.repack = e := by
  intro ctx e s hfv h
  obtain ⟨nfns, body, r, slots, eqss, he, hc, ha, hd, hl, hcs, hlocal, hsrc, hfns, har, heqs⟩ :=
    unpack_eqns_ok2 h
  subst he
  obtain ⟨hbody, hlen⟩ := collectFns_ok nfns body r hc
  have hslots : eqss.map toListE = slots := (decListList_some hd).1
  have hcore : toListE slots = openAll (idsFrom ctx.ngen r.1.length).reverse 0 r.2 :=
    asList_toListE ha
  have hfv2 : fvarsBelow ctx.ngen (tele r.1 r.2) = true := by
    rw [hbody]
    simpa [fvarsBelow] using hfv
  have hG := openClose_tele r.1 ctx.ngen [] r.2 hfv2 (by intro a ha2; simp at ha2)
  rw [List.nil_append, List.reverse_nil, openAll_nil] at hG
  show Expr.group s.m_fns.length
      (mkLambdas s.m_locals.stack (toListE (s.m_eqs.map toListE))) = .group nfns body
  rw [hlocal, hfns, heqs, hslots, hcore]
  show Expr.group ((idsFrom ctx.ngen r.1.length).map Expr.fvar).length
      (mkLambdas (pushDecls ctx.ngen [] r.1)
        (openAll (idsFrom ctx.ngen r.1.length).reverse 0 r.2)) = .group nfns body
  rw [hG, hbody]
  congr 1
  rw [List.length_map, idsFrom_length, hlen]

/-- Witness for C1: the spec's mutually recursive example group decodes
and repacks to itself. -/
theorem c1_group_roundtrip_witness :
    fvarsBelow ctx0.ngen exAB = true ∧ unpack_eqns ctx0 exAB = .ok (decodeGroup ctx0 exAB) ∧
    (decodeGroup ctx0 exAB).repack = exAB :=
  ⟨by decide, by decide,
   c1_group_roundtrip ctx0 exAB (decodeGroup ctx0 exAB) (by decide) (by decide)⟩

/-- Names the claim C2.  Decoding a term that is not tagged as an
equation group, or a clause term that omits the legacy `wrap`
indirection (also inside a group, as the concrete group of the third
conjunct shows), raises the Malformed-Input Signal — the error case of
`Except` — so no partially-decoded result can be returned. -/
theorem c2_malformed_rejected :
    (∀ (ctx : type_context) (e : Expr), isGroupE e = false → unpack_eqns ctx e = .error ()) ∧
    (∀ (ctx : type_context) (e : Expr), isWrapE e = false → unpack_eqn ctx e = .error ()) ∧
    unpack_eqns ctx0 exMissingWrap = .error () := by
  refine ⟨?_, ?_, by decide⟩
  · intro ctx e h
    cases e
    case group nfns body => simp [isGroupE] at h
    all_goals simp [unpack_eqns, throw_ill_formed_eqns]
  · intro ctx e h
    cases e
    case wrap body => simp [isWrapE] at h
    all_goals simp [unpack_eqn, throw_ill_formed_eqns]

/-- Witness for C2: a bare variable is rejected by the group decoder,
and a clause without the indirection is rejected by the clause
decoder. -/
theorem c2_malformed_rejected_witness :
    unpack_eqns ctx0 (.fvar 7) = .error () ∧ unpack_eqn ctx0 (.bvar 0) = .error () :=
  ⟨c2_malformed_rejected.1 ctx0 (.fvar 7) (by decide),
   c2_malformed_rejected.2.1 ctx0 (.bvar 0) (by decide)⟩

/-- Names the claim C9.  The output of `unpack_eqns::repack` does not
depend on the stored arities: two states agreeing on everything except
`m_arity` repack identically, and `get_arity_of` keeps returning the
decode-time arity across `get_eqns_of` mutation and
`update_fn_type`. -/
theorem c9_repack_ignores_arity :
    (∀ (L : tmp_locals) (src : Expr) (fns : List Expr) (ar1 ar2 : List Nat)
        (eqs : List (List Expr)),
        UnpackEqns.repack ⟨L, src, fns, ar1, eqs⟩ = UnpackEqns.repack ⟨L, src, fns, ar2, eqs⟩) ∧
    (∀ (s : UnpackEqns) (fidx : Nat) (cs : List Expr) (j : Nat),
        (s.set_eqns_of fidx cs).get_arity_of j = s.get_arity_of j) ∧
    (∀ (s : UnpackEqns) (fidx : Nat) (ty : Expr) (j : Nat),
        ((s.update_fn_type fidx ty).2).get_arity_of j = s.get_arity_of j) := by
  refine ⟨fun L src fns ar1 ar2 eqs => rfl, fun s fidx cs j => rfl, fun s fidx ty j => ?_⟩
  unfold UnpackEqns.update_fn_type
  cases s.m_locals.stack[fidx]? <;> rfl

/-- Names the claim C10.  The interface object copies the environment
at construction time (from either constructor), so all its queries are
functions of that snapshot alone: two contexts agreeing on the
environment — however much their mutable state differs, and however
the context is mutated after construction — give interfaces answering
every query identically. -/
theorem c10_env_snapshot :
    (∀ (ctx : type_context), eqns_env_interface.ofCtx ctx = eqns_env_interface.ofEnv ctx.env) ∧
    (∀ (c1 c2 : type_context), c1.env = c2.env → ∀ (n : Name) (e : Expr),
      (eqns_env_interface.ofCtx c1).is_inductive_name n
        = (eqns_env_interface.ofCtx c2).is_inductive_name n ∧
      (eqns_env_interface.ofCtx c1).is_inductive_expr e
        = (eqns_env_interface.ofCtx c2).is_inductive_expr e ∧
      (eqns_env_interface.ofCtx c1).is_constructor e
        = (eqns_env_interface.ofCtx c2).is_constructor e ∧
      (eqns_env_interface.ofCtx c1).get_inductive_num_params n
        = (eqns_env_interface.ofCtx c2).get_inductive_num_params n ∧
      (eqns_env_interface.ofCtx c1).get_inductive_num_indices n
        = (eqns_env_interface.ofCtx c2).get_inductive_num_indices n) := by
  refine ⟨fun ctx => rfl, fun c1 c2 h n e => ?_⟩
  have hI : eqns_env_interface.ofCtx c1 = eqns_env_interface.ofCtx c2 := by
    simp [eqns_env_interface.ofCtx, h]
  rw [hI]
  exact ⟨rfl, rfl, rfl, rfl, rfl⟩

/-- Witness for C10: two contexts over the same registry whose fresh
counters differ answer the queries identically. -/
theorem c10_env_snapshot_witness :
    (eqns_env_interface.ofCtx ctxA).get_inductive_num_params 5
      = (eqns_env_interface.ofCtx ctxB).get_inductive_num_params 5 ∧
    (eqns_env_interface.ofCtx ctxA).is_inductive_name 5
      = (eqns_env_interface.ofCtx ctxB).is_inductive_name 5 :=
  ⟨(c10_env_snapshot.2 ctxA ctxB rfl 5 (.const 5)).2.2.2.1,
   (c10_env_snapshot.2 ctxA ctxB rfl 5 (.const 5)).1⟩

/-- Names the claim C8.  Under the precondition that `n` names an
inductive type — `is_inductive` holds, equivalently the registry has an
entry — the two counting queries return that entry's leading-parameter
count and per-constructor index count.  The queries have no error
channel at all (they return plain numbers), so misuse on a
non-inductive name is a precondition violation, never a handled
error. -/
theorem c8_env_queries_precondition :
    (∀ (env : environment) (n : Name) (info : inductive_info),
        env.ind_info n = some info →
        (eqns_env_interface.ofEnv env).is_inductive_name n = true ∧
        (eqns_env_interface.ofEnv env).get_inductive_num_params n = info.num_params ∧
        (eqns_env_interface.ofEnv env).get_inductive_num_indices n = info.num_indices) ∧
    (∀ (env : environment) (n : Name),
        (eqns_env_interface.ofEnv env).is_inductive_name n = true →
        ∃ info, env.ind_info n = some info) := by
  constructor
  · intro env n info h
    simp [eqns_env_interface.ofEnv, eqns_env_interface.is_inductive_name,
          eqns_env_interface.get_inductive_num_params,
          eqns_env_interface.get_inductive_num_indices, h]
  · intro env n h
    simp only [eqns_env_interface.ofEnv, eqns_env_interface.is_inductive_name,
               Option.isSome_iff_exists] at h
    exact h

/-- Witness for C8: on the concrete registry `envW`, name 5 is
inductive with two parameters and one index, and the queries report
exactly that. -/
theorem c8_env_queries_precondition_witness :
    envW.ind_info 5 = some ⟨2, 1⟩ ∧
    (eqns_env_interface.ofEnv envW).is_inductive_name 5 = true ∧
    (eqns_env_interface.ofEnv envW).get_inductive_num_params 5 = 2 ∧
    (eqns_env_interface.ofEnv envW).get_inductive_num_indices 5 = 1 := by
  have h := c8_env_queries_precondition.1 envW 5 ⟨2, 1⟩ (by decide)
  exact ⟨by decide, h.1, h.2.1, h.2.2⟩

/-- Names the claim C3.  For every decoded group, the recursion
detector answers true exactly when some clause's rhs contains a free
occurrence of some function slot's placeholder of the same group —
re-bound occurrences are de Bruijn indices, never placeholders, so
they are skipped by construction.  In particular it answers true on
the spec's mutually recursive example, and false on the
non-self-referencing example and on the empty group. -/
theorem c3_recursion_detection :
    (∀ (ctx : type_context) (e : Expr) (s : UnpackEqns), unpack_eqns ctx e = .ok s →
      (is_recursive_eqns ctx e = .ok true ↔
        ∃ cs ∈ s.m_eqs, ∃ c ∈ cs, ∃ u, unpack_eqn ⟨ctx.env, s.m_locals.next⟩ c = .ok u ∧
          ∃ fn ∈ s.m_fns, occursE fn u.m_rhs = true)) ∧
    is_recursive_eqns ctx0 exAB = .ok true ∧
    is_recursive_eqns ctx0 exC = .ok false ∧
    is_recursive_eqns ctx0 exEmpty = .ok false := by
  refine ⟨?_, by decide, by decide, by decide⟩
  intro ctx e s h
  simp only [is_recursive_eqns, h]
  constructor
  · intro h2
    simp only [Except.ok.injEq] at h2
    rw [List.any_eq_true] at h2
    obtain ⟨cs, hcs, h3⟩ := h2
    rw [List.any_eq_true] at h3
    obtain ⟨c, hc, h4⟩ := h3
    obtain ⟨u, hu, fn, hfn, hocc⟩ := clauseRefs_iff.mp h4
    exact ⟨cs, hcs, c, hc, u, hu, fn, hfn, hocc⟩
  · rintro ⟨cs, hcs, c, hc, u, hu, fn, hfn, hocc⟩
    simp only [Except.ok.injEq]
    rw [List.any_eq_true]
    refine ⟨cs, hcs, ?_⟩
    rw [List.any_eq_true]
    exact ⟨c, hc, clauseRefs_iff.mpr ⟨u, hu, fn, hfn, hocc⟩⟩

/-- Witness for C3: the characterization instantiated at the decoded
mutually recursive example group. -/
theorem c3_recursion_detection_witness :
    is_recursive_eqns ctx0 exAB = .ok true ↔
      ∃ cs ∈ (decodeGroup ctx0 exAB).m_eqs, ∃ c ∈ cs, ∃ u,
        unpack_eqn ⟨ctx0.env, (decodeGroup ctx0 exAB).m_locals.next⟩ c = .ok u ∧
        ∃ fn ∈ (decodeGroup ctx0 exAB).m_fns, occursE fn u.m_rhs = true :=
  c3_recursion_detection.1 ctx0 exAB (decodeGroup ctx0 exAB) (by decide)

/-- Names the claim C4.  Decoding establishes that the slot, arity and
clause-list lists have equal lengths, and that every clause under slot
`i` decodes with a lhs applying slot `i`'s placeholder to exactly
`arity[i]` argument positions; `update_fn_type` leaves all three lists
and the counter untouched, and clause-buffer replacement through
`get_eqns_of` leaves the slot and arity lists and the clause-list
count untouched, so the lock-step length invariant is preserved by
every codec operation. -/
theorem c4_lockstep_arity :
    (∀ (ctx : type_context) (e : Expr) (s : UnpackEqns), unpack_eqns ctx e = .ok s →
      (s.m_fns.length = s.m_arity.length ∧ s.m_arity.length = s.m_eqs.length) ∧
      (∀ (i : Nat) (c : Expr), c ∈ s.m_eqs.getD i [] →
        ∃ u, unpack_eqn ⟨ctx.env, s.m_locals.next⟩ c = .ok u ∧
          getAppFn u.m_lhs = s.m_fns.getD i (.fvar 0) ∧
          getAppNumArgs u.m_lhs = s.m_arity.getD i 0)) ∧
    (∀ (s : UnpackEqns) (fidx : Nat) (ty : Expr),
      ((s.update_fn_type fidx ty).2).m_fns = s.m_fns ∧
      ((s.update_fn_type fidx ty).2).m_arity = s.m_arity ∧
      ((s.update_fn_type fidx ty).2).m_eqs = s.m_eqs ∧
      ((s.update_fn_type fidx ty).2).m_locals.next = s.m_locals.next) ∧
    (∀ (s : UnpackEqns) (fidx : Nat) (cs : List Expr),
      (s.set_eqns_of fidx cs).m_fns = s.m_fns ∧
      (s.set_eqns_of fidx cs).m_arity = s.m_arity ∧
      (s.set_eqns_of fidx cs).m_eqs.length = s.m_eqs.length) := by
  refine ⟨?_, ?_, ?_⟩
  · intro ctx e s h
    obtain ⟨nfns, body, r, slots, eqss, he, hc, ha, hd, hl, hcs, hlocal, hsrc, hfns, har, heqs⟩ :=
      unpack_eqns_ok2 h
    obtain ⟨hbody, hlen⟩ := collectFns_ok nfns body r hc
    have hknext : s.m_locals.next = ctx.ngen + r.1.length := by rw [hlocal]
    refine ⟨⟨?_, ?_⟩, ?_⟩
    · rw [hfns, har]
      simp [idsFrom_length, pushDecls_length]
    · rw [har, heqs, (decListList_some hd).2, hl, ← hlen]
      simp [pushDecls_length]
    · intro i c hc2
      rw [heqs] at hc2
      have h5 := checkSlots_spec _ _ _ hcs i c hc2
      obtain ⟨u, hu, h6, h7⟩ := checkEqn_spec h5
      refine ⟨u, ?_, ?_, ?_⟩
      · rw [hknext]
        exact hu
      · rw [hfns]
        exact h6
      · rw [har]
        exact h7
  · intro s fidx ty
    unfold UnpackEqns.update_fn_type
    cases s.m_locals.stack[fidx]? <;> simp
  · intro s fidx cs
    unfold UnpackEqns.set_eqns_of
    simp

/-- Witness for C4: the lock-step length invariant instantiated at the
decoded mutually recursive example group. -/
theorem c4_lockstep_arity_witness :
    (decodeGroup ctx0 exAB).m_fns.length = (decodeGroup ctx0 exAB).m_arity.length ∧
    (decodeGroup ctx0 exAB).m_arity.length = (decodeGroup ctx0 exAB).m_eqs.length :=
  (c4_lockstep_arity.1 ctx0 exAB (decodeGroup ctx0 exAB) (by decide)).1

/-! Lemmas for the update_fn_type frame property. -/

theorem rawT_length : ∀ (ds : List LocalDecl) (xs : List Nat), (rawT ds xs).length = ds.length := by
  intro ds
  induction ds with
  | nil => intro xs; rfl
  | cons d ds ih => intro xs; simp [rawT, ih]

theorem map_id_set : ∀ (ds : List LocalDecl) (i : Nat) (d d2 : LocalDecl),
    ds[i]? = some d → d2.id = d.id →
    (ds.set i d2).map LocalDecl.id = ds.map LocalDecl.id := by
  intro ds
  induction ds with
  | nil => intro i d d2 h _; simp at h
  | cons a ds ih =>
      intro i d d2 h hid
      cases i with
      | zero =>
          simp only [List.getElem?_cons_zero, Option.some.injEq] at h
          subst h
          simp [hid]
      | succ i =>
          simp only [List.getElem?_cons_succ] at h
          rw [show (a :: ds).set (i+1) d2 = a :: ds.set i d2 from rfl]
          simp [ih i d d2 h hid]

theorem rawT_set : ∀ (ds : List LocalDecl) (i : Nat) (d : LocalDecl) (ty : Expr) (xs : List Nat),
    ds[i]? = some d →
    (rawT (ds.set i ⟨d.id, d.nm, ty⟩) xs).length = (rawT ds xs).length ∧
    (∀ j, j ≠ i → (rawT (ds.set i ⟨d.id, d.nm, ty⟩) xs)[j]? = (rawT ds xs)[j]?) ∧
    (rawT (ds.set i ⟨d.id, d.nm, ty⟩) xs)[i]?.map Prod.fst
      = (rawT ds xs)[i]?.map Prod.fst := by
  intro ds
  induction ds with
  | nil => intro i d ty xs h; simp at h
  | cons a ds ih =>
      intro i d ty xs h
      cases i with
      | zero =>
          simp only [List.getElem?_cons_zero, Option.some.injEq] at h
          subst h
          refine ⟨by simp [rawT], ?_, by simp [rawT]⟩
          intro j hj
          cases j with
          | zero => exact absurd rfl hj
          | succ j => simp [rawT]
      | succ i =>
          simp only [List.getElem?_cons_succ] at h
          obtain ⟨l1, l2, l3⟩ := ih i d ty (a.id :: xs) h
          rw [show (a :: ds).set (i+1) ⟨d.id, d.nm, ty⟩ = a :: ds.set i ⟨d.id, d.nm, ty⟩ from rfl]
          refine ⟨?_, ?_, ?_⟩
          · simp [rawT, l1]
          · intro j hj
            cases j with
            | zero => simp [rawT]
            | succ j =>
                simp only [rawT, List.getElem?_cons_succ]
                exact l2 j (fun hEq => hj (by rw [hEq]))
          · simp only [rawT, List.getElem?_cons_succ]
            exact l3

theorem update_fn_type_eq : ∀ (s : UnpackEqns) (fidx : Nat) (ty : Expr) {d : LocalDecl},
    s.m_locals.stack[fidx]? = some d →
    (s.update_fn_type fidx ty).2 =
      { s with m_locals := ⟨s.m_locals.next, s.m_locals.stack.set fidx ⟨d.id, d.nm, ty⟩⟩ } := by
  intro s fidx ty d h
  simp only [UnpackEqns.update_fn_type, h]

/-- Names the claim C5.  For every decoded group and valid slot index
`i`, updating slot `i`'s type and repacking without touching any
clause keeps the state's slot, arity and clause lists intact, and the
repacked term has: the same clause-list payload, the same binder at
every slot other than `i`, and the same binder name (only the declared
type may differ) at slot `i`. -/
theorem c5_update_fn_type_isolated :
    ∀ (ctx : type_context) (e : Expr) (s : UnpackEqns) (i : Nat) (ty : Expr),
    unpack_eqns ctx e = .ok s → i < s.get_num_fns →
    ((s.update_fn_type i ty).2.m_eqs = s.m_eqs ∧
     (s.update_fn_type i ty).2.m_fns = s.m_fns ∧
     (s.update_fn_type i ty).2.m_arity = s.m_arity) ∧
    ∃ bs bs2 core,
      groupBinders s.repack = some (bs, core) ∧
      groupBinders ((s.update_fn_type i ty).2).repack = some (bs2, core) ∧
      bs2.length = bs.length ∧
      (∀ j, j ≠ i → bs2[j]? = bs[j]?) ∧
      bs2[i]?.map Prod.fst = bs[i]?.map Prod.fst := by
  intro ctx e s i ty h hi
  obtain ⟨nfns, body, r, slots, eqss, he, hc, ha, hd, hl, hcs, hlocal, hsrc, hfns, har, heqs⟩ :=
    unpack_eqns_ok2 h
  have hstlen : s.m_locals.stack.length = s.m_fns.length := by
    rw [hlocal, hfns]
    simp [pushDecls_length, idsFrom_length]
  have hilt : i < s.m_locals.stack.length := by
    rw [hstlen]
    exact hi
  obtain ⟨d, hdq⟩ : ∃ d, s.m_locals.stack[i]? = some d :=
    ⟨_, List.getElem?_eq_getElem hilt⟩
  have hupd := update_fn_type_eq s i ty hdq
  have hframe : (s.update_fn_type i ty).2.m_eqs = s.m_eqs ∧
      (s.update_fn_type i ty).2.m_fns = s.m_fns ∧
      (s.update_fn_type i ty).2.m_arity = s.m_arity := by
    rw [hupd]
    exact ⟨rfl, rfl, rfl⟩
  refine ⟨hframe, ?_⟩
  have hgb : ∀ (st : List LocalDecl) (X : Expr), st.length = s.m_fns.length →
      groupBinders (Expr.group s.m_fns.length (mkLambdas st X))
        = some (rawT st [], closeAll (revIds st) 0 X) := by
    intro st X hlen
    simp only [groupBinders, mkLambdas_eq]
    rw [show s.m_fns.length = (rawT st []).length by rw [rawT_length, hlen]]
    rw [collectFns_tele]
  have hids : (s.m_locals.stack.set i ⟨d.id, d.nm, ty⟩).map LocalDecl.id
      = s.m_locals.stack.map LocalDecl.id := map_id_set _ i d _ hdq rfl
  have hrev : revIds (s.m_locals.stack.set i ⟨d.id, d.nm, ty⟩) = revIds s.m_locals.stack := by
    rw [revIds_eq_map, revIds_eq_map, hids]
  have hrepack1 : s.repack = Expr.group s.m_fns.length
      (mkLambdas s.m_locals.stack (toListE (s.m_eqs.map toListE))) := rfl
  have hrepack2 : ((s.update_fn_type i ty).2).repack = Expr.group s.m_fns.length
      (mkLambdas (s.m_locals.stack.set i ⟨d.id, d.nm, ty⟩) (toListE (s.m_eqs.map toListE))) := by
    rw [hupd]
    rfl
  obtain ⟨l1, l2, l3⟩ := rawT_set s.m_locals.stack i d ty [] hdq
  refine ⟨rawT s.m_locals.stack [],
          rawT (s.m_locals.stack.set i ⟨d.id, d.nm, ty⟩) [],
          closeAll (revIds s.m_locals.stack) 0 (toListE (s.m_eqs.map toListE)), ?_, ?_, ?_, ?_, ?_⟩
  · rw [hrepack1, hgb s.m_locals.stack _ hstlen]
  · rw [hrepack2, hgb _ _ (by rw [List.length_set]; exact hstlen), hrev]
  · exact l1
  · exact l2
  · exact l3

/-- Witness for C5: updating slot 0's declared type in the decoded
two-function example group leaves slot 1's binder and the whole clause
payload of the repacked term untouched. -/
theorem c5_update_fn_type_isolated_witness :
    ((decodeGroup ctx0 exAB).update_fn_type 0 (.const 9)).2.m_eqs
      = (decodeGroup ctx0 exAB).m_eqs ∧
    ((decodeGroup ctx0 exAB).update_fn_type 0 (.const 9)).2.m_fns
      = (decodeGroup ctx0 exAB).m_fns ∧
    ((decodeGroup ctx0 exAB).update_fn_type 0 (.const 9)).2.m_arity
      = (decodeGroup ctx0 exAB).m_arity :=
  (c5_update_fn_type_isolated ctx0 exAB (decodeGroup ctx0 exAB) 0 (.const 9)
    (by decide) (by decide)).1

/-! Lemmas for the close discipline. -/

theorem occursF_tele : ∀ (bs : List (Name × Expr)) (x : Nat) (core : Expr),
    occursF x (tele bs core) = ((bs.any fun b => occursF x b.2) || occursF x core) := by
  intro bs
  induction bs with
  | nil => intro x core; simp [tele]
  | cons b bs ih =>
      intro x core
      cases b with
      | mk n ty => simp [tele, occursF, ih, Bool.or_assoc]

theorem rawT_no_occurs : ∀ (ds : List LocalDecl) (xs : List Nat) (x : Nat),
    (x ∈ ds.map LocalDecl.id ∨ x ∈ xs) →
    (∀ (j : Nat) (d : LocalDecl), ds[j]? = some d →
        ∀ y ∈ (ds.drop j).map LocalDecl.id, occursF y d.ty = false) →
    ∀ b ∈ rawT ds xs, occursF x b.2 = false := by
  intro ds
  induction ds with
  | nil => intro xs x _ _ b hb; simp [rawT] at hb
  | cons d ds ih =>
      intro xs x hx hbk b hb
      simp only [rawT, List.mem_cons] at hb
      rcases hb with hb | hb
      · subst hb
        by_cases hxxs : x ∈ xs
        · exact occursF_closeAll_self hxxs d.ty 0
        · have hx2 : x ∈ (d :: ds).map LocalDecl.id := by tauto
          have h0 := hbk 0 d (by simp) x (by simpa using hx2)
          exact occursF_closeAll d.ty 0 h0
      · refine ih (d.id :: xs) x ?_ ?_ b hb
        · rcases hx with hx | hx
          · simp only [List.map_cons, List.mem_cons] at hx
            rcases hx with hx | hx
            · right; simp [hx]
            · left; exact hx
          · right; exact List.mem_cons_of_mem _ hx
        · intro j d2 hj y hy
          exact hbk (j+1) d2 (by simpa using hj) y (by simpa using hy)

/-- Names the claim C7.  Each clause repack closes exactly the
placeholders pushed since that clause's open mark, in strict
reverse-of-push order (the first conjunct exhibits the output as the
telescope over the clause's own stack with `revIds`, so it never
touches a sibling clause's placeholders); and when the caller respects
the close precondition — every stored binder type mentions no
placeholder at or above its own position — the repacked term contains
no reference to any placeholder of the codec's bookkeeping. -/
theorem c7_close_discipline :
    ∀ (u : UnpackEqn),
    (u.repack = .wrap (tele (rawT u.m_locals.stack [])
        (closeAll (revIds u.m_locals.stack) 0 (.eqn u.m_lhs u.m_rhs)))) ∧
    ((∀ (j : Nat) (d : LocalDecl), u.m_locals.stack[j]? = some d →
        ∀ y ∈ (u.m_locals.stack.drop j).map LocalDecl.id, occursF y d.ty = false) →
      ∀ x ∈ u.m_locals.stack.map LocalDecl.id, occursF x u.repack = false) := by
  intro u
  constructor
  · show Expr.wrap (mkLambdas u.m_locals.stack (.eqn u.m_lhs u.m_rhs)) = _
    rw [mkLambdas_eq]
  · intro hbk x hx
    show occursF x (Expr.wrap (mkLambdas u.m_locals.stack (.eqn u.m_lhs u.m_rhs))) = false
    rw [mkLambdas_eq]
    have h1 : ∀ b ∈ rawT u.m_locals.stack [], occursF x b.2 = false :=
      rawT_no_occurs u.m_locals.stack [] x (Or.inl hx) hbk
    have h2 : x ∈ revIds u.m_locals.stack := by
      rw [revIds_eq_map, List.mem_reverse]
      exact hx
    have h3 : ((rawT u.m_locals.stack []).any fun b => occursF x b.2) = false := by
      rw [List.any_eq_false]
      intro b hb
      simp [h1 b hb]
    show occursF x (tele (rawT u.m_locals.stack [])
        (closeAll (revIds u.m_locals.stack) 0 (.eqn u.m_lhs u.m_rhs))) = false
    rw [occursF_tele, h3, occursF_closeAll_self h2]
    rfl

/-- Witness for C7: the decoded clause `C n = n + 1` repacks to a term
in which its own pattern-variable placeholder (identifier 0) no longer
occurs free. -/
theorem c7_close_discipline_witness :
    occursF 0 ((decodeEqn ctx0 clauseC).repack) = false := by
  have hst : (decodeEqn ctx0 clauseC).m_locals.stack = [⟨0, 5, .const 9⟩] := by decide
  have hbk : ∀ (j : Nat) (d : LocalDecl), (decodeEqn ctx0 clauseC).m_locals.stack[j]? = some d →
      ∀ y ∈ ((decodeEqn ctx0 clauseC).m_locals.stack.drop j).map LocalDecl.id,
        occursF y d.ty = false := by
    rw [hst]
    intro j d hj y hy
    cases j with
    | zero =>
        simp only [List.getElem?_cons_zero, Option.some.injEq] at hj
        subst hj
        simp [occursF]
    | succ j => simp at hj
  exact (c7_close_discipline (decodeEqn ctx0 clauseC)).2 hbk 0 (by decide)

theorem closeAll_eqn (xs : List Nat) (d : Nat) (l r : Expr) :
    closeAll xs d (.eqn l r) = .eqn (closeAll xs d l) (closeAll xs d r) := rfl

theorem psDecls_length : ∀ (ps : List (Name × Expr)) (nx : Nat),
    (psDecls nx ps).length = ps.length := by
  intro ps
  induction ps with
  | nil => intro nx; rfl
  | cons p ps ih => intro nx; cases p; simp [psDecls, ih]

/-- Names the claim C6.  Starting from a decoded clause with `n`
pattern variables (the clause well-scoped and the counter fresh for
it), adding `k` pattern variables through `add_var` and repacking
yields a clause term that decodes again — under the same ambient
context — to exactly `n + k` pattern variables with the left- and
right-hand sides preserved. -/
theorem c6_add_var_repack :
    ∀ (ctx : type_context) (e : Expr) (u : UnpackEqn) (ps : List (Name × Expr)),
    fvarsBelow ctx.ngen e = true → LCb 0 e = true →
    unpack_eqn ctx e = .ok u →
    (∀ p ∈ ps, LCb 0 p.2 = true) →
    ∃ u2, unpack_eqn ctx ((addVars u ps).repack) = .ok u2 ∧
      u2.m_vars.length = u.m_vars.length + ps.length ∧
      u2.m_lhs = u.m_lhs ∧ u2.m_rhs = u.m_rhs := by
  intro ctx e u ps hfv hlc h hps
  obtain ⟨body, bs, l, r, he, hcol, hsrc, hlocal, hvars, hlhs, hrhs⟩ := unpack_eqn_ok2 h
  subst he
  have hbody : tele bs (.eqn l r) = body := by
    have h2 := tele_collectLams body
    rw [hcol] at h2
    exact h2
  have hlcbody : LCb 0 body = true := by simpa [LCb] using hlc
  have hlctele : LCb 0 (tele bs (.eqn l r)) = true := by rw [hbody]; exact hlcbody
  have hlccore : LCb (0 + bs.length) (.eqn l r) = true := LCb_tele bs 0 (.eqn l r) hlctele
  have hlcl : LCb bs.length l = true := by
    simp only [LCb, Bool.and_eq_true, Nat.zero_add] at hlccore
    exact hlccore.1
  have hlcr : LCb bs.length r = true := by
    simp only [LCb, Bool.and_eq_true, Nat.zero_add] at hlccore
    exact hlccore.2
  have hrevlen : ((idsFrom ctx.ngen bs.length).reverse).length = bs.length := by
    simp [idsFrom_length]
  have hlc_lhs : LCb 0 u.m_lhs = true := by
    rw [hlhs]
    refine LCb_openAll _ l 0 ?_
    rw [hrevlen]
    simpa using hlcl
  have hlc_rhs : LCb 0 u.m_rhs = true := by
    rw [hrhs]
    refine LCb_openAll _ r 0 ?_
    rw [hrevlen]
    simpa using hlcr
  obtain ⟨a1, a2, a3, a4, a5⟩ := addVars_eq ps u
  have hstack : u.m_locals.stack = pushDecls ctx.ngen [] bs := by rw [hlocal]
  have hnext : u.m_locals.next = ctx.ngen + bs.length := by rw [hlocal]
  set DS : List LocalDecl :=
    pushDecls ctx.ngen [] bs ++ psDecls (ctx.ngen + bs.length) ps with hDSdef
  have hDS : (addVars u ps).m_locals.stack = DS := by
    rw [a2, hstack, hnext]
  have hDSlen : DS.length = bs.length + ps.length := by
    simp [hDSdef, pushDecls_length, psDecls_length]
  have hids : DS.map LocalDecl.id = idsFrom ctx.ngen (bs.length + ps.length) := by
    rw [hDSdef, List.map_append, pushDecls_ids, psDecls_ids, idsFrom_append]
  have hLCds : ∀ d ∈ DS, LCb 0 d.ty = true := by
    intro d hd
    rw [hDSdef] at hd
    rcases List.mem_append.mp hd with hd | hd
    · exact pushDecls_LC bs ctx.ngen [] (.eqn l r) hlctele d hd
    · exact psDecls_LC ps (ctx.ngen + bs.length) hps d hd
  have hrepack : (addVars u ps).repack = .wrap (mkLambdas DS (.eqn u.m_lhs u.m_rhs)) := by
    show Expr.wrap (mkLambdas (addVars u ps).m_locals.stack
        (.eqn (addVars u ps).m_lhs (addVars u ps).m_rhs)) = _
    rw [hDS, a3, a4]
  have hcol2 : collectLams (mkLambdas DS (.eqn u.m_lhs u.m_rhs))
      = (rawT DS [], .eqn (closeAll (revIds DS) 0 u.m_lhs) (closeAll (revIds DS) 0 u.m_rhs)) := by
    rw [mkLambdas_eq, closeAll_eqn]
    exact collect_tele _ _ rfl
  have hPT := pushTele_rawT DS ctx.ngen [] [] (by rw [hids, hDSlen]) hLCds
  rw [List.reverse_nil] at hPT
  have hrev : revIds DS = (idsFrom ctx.ngen DS.length).reverse := by
    rw [revIds_eq_map, hids, hDSlen]
  have hdec : unpack_eqn ctx ((addVars u ps).repack) = .ok
      ⟨.wrap (mkLambdas DS (.eqn u.m_lhs u.m_rhs)), ⟨ctx.ngen + DS.length, DS⟩, false,
       (idsFrom ctx.ngen DS.length).map Expr.fvar,
       mkLambdas DS (.eqn u.m_lhs u.m_rhs),
       openAll (idsFrom ctx.ngen DS.length).reverse 0 (closeAll (revIds DS) 0 u.m_lhs),
       openAll (idsFrom ctx.ngen DS.length).reverse 0 (closeAll (revIds DS) 0 u.m_rhs)⟩ := by
    rw [hrepack]
    simp only [unpack_eqn, hcol2, hPT, List.nil_append]
  refine ⟨_, hdec, ?_, ?_, ?_⟩
  · show ((idsFrom ctx.ngen DS.length).map Expr.fvar).length = u.m_vars.length + ps.length
    rw [hvars]
    simp [idsFrom_length, hDSlen]
  · show openAll (idsFrom ctx.ngen DS.length).reverse 0 (closeAll (revIds DS) 0 u.m_lhs)
      = u.m_lhs
    rw [hrev]
    exact openAll_closeAll _ u.m_lhs 0 hlc_lhs
  · show openAll (idsFrom ctx.ngen DS.length).reverse 0 (closeAll (revIds DS) 0 u.m_rhs)
      = u.m_rhs
    rw [hrev]
    exact openAll_closeAll _ u.m_rhs 0 hlc_rhs

/-- Witness for C6: adding one pattern variable to the decoded
standalone clause and repacking decodes again to one more variable
with the same lhs and rhs. -/
theorem c6_add_var_repack_witness :
    ∃ u2, unpack_eqn ctx0 ((addVars (decodeEqn ctx0 clauseS) [(6, Expr.const 9)]).repack)
        = .ok u2 ∧
      u2.m_vars.length = (decodeEqn ctx0 clauseS).m_vars.length + 1 ∧
      u2.m_lhs = (decodeEqn ctx0 clauseS).m_lhs ∧
      u2.m_rhs = (decodeEqn ctx0 clauseS).m_rhs := by
  have h := c6_add_var_repack ctx0 clauseS (decodeEqn ctx0 clauseS) [(6, Expr.const 9)]
    (by decide) (by decide) (by decide) (by decide)
  simpa using h

end EqCompiler
